import Mathlib

/-!
Verification development for the bulk-file version-control overlay (`bkp`).

The Rust sources are embedded shallowly: strings are `List Char`, byte
strings are `List Nat` (each byte `< 256`), fallible code returns `Option`
or `Except`, and the content-addressed object database (an external
collaborator of the program) is modelled as an append-only store of
objects addressed by index.  Each definition carries a comment naming the
source function it embeds.
-/

set_option maxRecDepth 4000

/-- Decimal digit character for `n < 10` (explicit table, mirroring the
standard formatting of `u64`/`u16` values in Rust `Display`). -/
def digitChar : Nat → Char
  | 0 => '0' | 1 => '1' | 2 => '2' | 3 => '3' | 4 => '4'
  | 5 => '5' | 6 => '6' | 7 => '7' | 8 => '8' | _ => '9'

/-- Numeric value of a decimal digit character. -/
def digitVal (c : Char) : Nat := c.toNat - 48

/-- ASCII decimal digit test (Rust `char::is_ascii_digit`, the class `[0-9]`). -/
def isDigitCh (c : Char) : Bool := 48 ≤ c.toNat && c.toNat ≤ 57

/-- Little-endian digit list of a positive natural number; `0` yields `[]`. -/
def natDigitsRev : Nat → List Char
  | 0 => []
  | n+1 =>
    digitChar ((n+1) % 10) :: natDigitsRev ((n+1) / 10)
decreasing_by exact Nat.div_lt_self (Nat.succ_pos n) (by omega)

/-- Decimal rendering of a natural number, as Rust `Display` for unsigned
integers renders it (no sign, no padding). -/
def natPrint (n : Nat) : List Char :=
  if n = 0 then ['0'] else (natDigitsRev n).reverse

/-- Accumulating decimal parser over a digit list; fails on any non-digit. -/
def parseDigitsAux : List Char → Nat → Option Nat
  | [], acc => some acc
  | c :: cs, acc =>
    if isDigitCh c then parseDigitsAux cs (acc * 10 + digitVal c) else none

/-- Parse a non-empty all-digit character list as a natural number. -/
def parseDigits (cs : List Char) : Option Nat :=
  match cs with
  | [] => none
  | _ => parseDigitsAux cs 0

/-- Drop the optional leading `+` sign accepted by Rust's unsigned-integer
parsers. -/
def stripPlus (cs : List Char) : List Char :=
  match cs with
  | c :: rest => if c = '+' then rest else cs
  | [] => cs

/-- Rust `u64::from_str`: an optional leading `+`, then one or more decimal
digits, with the value required to fit in 64 bits (overflow is an error). -/
def rustParseU64 (cs : List Char) : Option Nat :=
  match parseDigits (stripPlus cs) with
  | some v => if v < 2 ^ 64 then some v else none
  | none => none

/-- Rust `u16::from_str`: as `rustParseU64` but bounded by 16 bits. -/
def rustParseU16 (cs : List Char) : Option Nat :=
  match parseDigits (stripPlus cs) with
  | some v => if v < 2 ^ 16 then some v else none
  | none => none

/-- Lowercase hexadecimal digit character for `n < 16` (the `hex` crate's
`encode`). -/
def hexDigitChar : Nat → Char
  | 0 => '0' | 1 => '1' | 2 => '2' | 3 => '3' | 4 => '4'
  | 5 => '5' | 6 => '6' | 7 => '7' | 8 => '8' | 9 => '9'
  | 10 => 'a' | 11 => 'b' | 12 => 'c' | 13 => 'd' | 14 => 'e' | _ => 'f'

/-- Two-character lowercase hex rendering of one byte. -/
def byteHex (b : Nat) : List Char := [hexDigitChar (b / 16), hexDigitChar (b % 16)]

/-- Lowercase hex rendering of a byte string (the `hex` crate's `encode`). -/
def hexOfBytes : List Nat → List Char
  | [] => []
  | b :: bs => byteHex b ++ hexOfBytes bs

/-- Value of one hex digit character; the `hex` crate accepts both cases. -/
def hexDigitVal (c : Char) : Option Nat :=
  if 48 ≤ c.toNat && c.toNat ≤ 57 then some (c.toNat - 48)
  else if 97 ≤ c.toNat && c.toNat ≤ 102 then some (c.toNat - 87)
  else if 65 ≤ c.toNat && c.toNat ≤ 70 then some (c.toNat - 55)
  else none

/-- Hex decoding of an even-length character list into bytes (the `hex`
crate's `decode_to_slice`, which fails on odd length or a non-hex digit). -/
def hexDecodeBytes : List Char → Option (List Nat)
  | [] => some []
  | [_] => none
  | c1 :: c2 :: cs =>
    match hexDigitVal c1, hexDigitVal c2, hexDecodeBytes cs with
    | some h, some l, some bs => some ((h * 16 + l) :: bs)
    | _, _, _ => none

/-- Hex decoding into exactly 32 bytes: `hex::decode_to_slice` with a
32-byte output buffer fails unless the input has exactly 64 characters.
This embeds `BlobShadowContentSha256::from_str` / `ContentSha256::from_str`. -/
def hexDecode32 (cs : List Char) : Option (List Nat) :=
  if cs.length = 64 then hexDecodeBytes cs else none

/-- Strip an expected leading character sequence, returning the remainder
(Rust `str::strip_prefix`). -/
def stripPfx : List Char → List Char → Option (List Char)
  | [], cs => some cs
  | _ :: _, [] => none
  | p :: ps, c :: cs => if c = p then stripPfx ps cs else none

/-- Split a character list at newlines, Rust `str::split('\n')` semantics:
the result always has one more piece than there are newlines, so a string
ending in a newline produces a trailing empty piece. -/
def splitNl : List Char → List (List Char)
  | [] => [[]]
  | c :: rest =>
    if c = '\n' then [] :: splitNl rest
    else
      match splitNl rest with
      | l :: ls => (c :: l) :: ls
      | [] => [[c]]

/-- Split at the first space, dropping it (Rust `str::split_once(' ')`). -/
def splitOnceSpace : List Char → Option (List Char × List Char)
  | [] => none
  | c :: cs =>
    if c = ' ' then some ([], cs)
    else
      match splitOnceSpace cs with
      | some (l, r) => some (c :: l, r)
      | none => none

/-- Check whether a character list ends with a newline. -/
def endsNl : List Char → Bool
  | [] => false
  | [c] => c = '\n'
  | _ :: cs => endsNl cs

/-- Shadow record of `src/blob.rs` (`BlobShadow`): a 32-byte SHA-256 digest
together with a mandatory 64-bit size.  The digest is a byte list. -/
structure BlobShadow where
  contentHash : List Nat
  size : Nat
deriving DecidableEq, Repr

/-- Canonical text of a `BlobShadow` (`impl Display for BlobShadow`):
`sha256 <64-hex>\nsize <decimal>\n`. -/
def blobShadowToChars (s : BlobShadow) : List Char :=
  "sha256 ".data ++ hexOfBytes s.contentHash ++ '\n' ::
    ("size ".data ++ natPrint s.size ++ ['\n'])

/-- Parser of `BlobShadow::from_str` (src/blob.rs): split on `'\n'`, demand
a `sha256 <hex>` line, a `size <decimal>` line, one empty trailing piece
and nothing further.  `from_bytes` is `from_str` after UTF-8 decoding;
the embedding works at the character level (errors are collapsed into
`none`). -/
def blobShadowFromChars (cs : List Char) : Option BlobShadow :=
  match splitNl cs with
  | [l1, l2, l3] =>
    if l3 = [] then
      (match splitOnceSpace l1, splitOnceSpace l2 with
       | some (k1, v1), some (k2, v2) =>
         if k1 = "sha256".data ∧ k2 = "size".data then
           (match hexDecode32 v1, rustParseU64 v2 with
            | some hash, some sz => some ⟨hash, sz⟩
            | _, _ => none)
         else none
       | _, _ => none)
    else none
  | _ => none

/-- Shadow record of `src/shadow.rs` (`Shadow`): digest plus an *optional*
size. -/
structure ShadowRec where
  contentHash : List Nat
  size : Option Nat
deriving DecidableEq, Repr

/-- Canonical text of a `Shadow` (`impl Display for Shadow`): the size line
is emitted only when the size is present. -/
def shadowToChars (s : ShadowRec) : List Char :=
  "sha256 ".data ++ hexOfBytes s.contentHash ++ '\n' ::
    (match s.size with
     | some n => "size ".data ++ natPrint n ++ ['\n']
     | none => [])

/-- Character class `[a-z0-9]` used by the `Shadow::from_str` regex for the
hash field. -/
def isHashChar (c : Char) : Bool :=
  (97 ≤ c.toNat && c.toNat ≤ 122) || (48 ≤ c.toNat && c.toNat ≤ 57)

/-- Parser of `Shadow::from_str` (src/shadow.rs): the anchored regex
`^sha256 ([a-z0-9]{64})\n(size ([0-9]+)\n)?$`, with the hash capture fed
to hex decoding and the size capture to `u64` parsing.  The regex is
deterministic on this shape, so it is embedded as a straight-line parser. -/
def shadowFromChars (cs : List Char) : Option ShadowRec :=
  match stripPfx "sha256 ".data cs with
  | none => none
  | some rest =>
    if (rest.take 64).length = 64 && (rest.take 64).all isHashChar then
      (match rest.drop 64 with
       | '\n' :: tail =>
         if tail = [] then
           (match hexDecode32 (rest.take 64) with
            | some h => some ⟨h, none⟩
            | none => none)
         else
           (match stripPfx "size ".data tail with
            | none => none
            | some rest3 =>
              if rest3.takeWhile isDigitCh ≠ [] ∧ rest3.dropWhile isDigitCh = ['\n'] then
                (match hexDecode32 (rest.take 64), rustParseU64 (rest3.takeWhile isDigitCh) with
                 | some h, some sz => some ⟨h, some sz⟩
                 | _, _ => none)
              else none)
       | _ => none)
    else none

/-- Entry name of `src/entry.rs` (`BulkTreeEntryName`): the marker slot or
a child slot holding a raw path component string. -/
inductive BulkTreeEntryName where
  | marker : BulkTreeEntryName
  | child : String → BulkTreeEntryName
deriving DecidableEq, Repr

/-- Encoder of `BulkTreeEntryName::encode`: the marker is `"0"`, a child is
`"0_" ++ c`. -/
def BulkTreeEntryName.encode : BulkTreeEntryName → String
  | .marker => "0"
  | .child c => "0_" ++ c

/-- Decoder of `BulkTreeEntryName::decode` (src/entry.rs): `"0"` is the
marker; otherwise the `"0_"` prefix is stripped and the remainder is taken
as the child component *without any validation*. -/
def BulkTreeEntryName.decode (s : String) : Option BulkTreeEntryName :=
  if s = "0" then some .marker
  else
    match stripPfx "0_".data s.data with
    | some childChars => some (.child ⟨childChars⟩)
    | none => none

/-- Validating component parser of `ShadowPathComponent::from_str`
(src/paths.rs): rejects `"."`, `".."`, anything containing `/` or NUL, and
the empty string, in that order. -/
def shadowComponentFromStr (s : String) : Option String :=
  if s = "." ∨ s = ".." then none
  else if s.data.any (fun c => c = '/' ∨ c = Char.ofNat 0) then none
  else if s = "" then none
  else some s

/-- Entry name of `src/paths.rs` (`ShadowTreeEntryName`), whose child
carries a *validated* component. -/
inductive ShadowTreeEntryName where
  | marker : ShadowTreeEntryName
  | child : String → ShadowTreeEntryName
deriving DecidableEq, Repr

/-- Encoder for a child slot (`ShadowTreeEntryName::encode_child`). -/
def encodeChildName (c : String) : String := "0_" ++ c

/-- Decoder of `ShadowTreeEntryName::from_str` (src/paths.rs): as the bulk
decoder, but the inner component must pass `ShadowPathComponent::from_str`. -/
def shadowEntryFromStr (s : String) : Option ShadowTreeEntryName :=
  if s = "0" then some .marker
  else
    match stripPfx "0_".data s.data with
    | some childChars =>
      match shadowComponentFromStr ⟨childChars⟩ with
      | some c => some (.child c)
      | none => none
    | none => none

/-- Mode-field parser of the nodes stream (src/snapshot.rs,
`NodesEntries::next`): the regex captures the field with `0[0-9]+` and the
code converts it with `str::parse::<u16>`, which reads the digits as a
*decimal* numeral.  `none` when the field does not have the regex shape or
overflows `u16`. -/
def nodesModeValue (cs : List Char) : Option Nat :=
  match cs with
  | '0' :: rest => if rest ≠ [] && cs.all isDigitCh then rustParseU16 cs else none
  | _ => none

/-- Executable test of `NodesEntry::is_executable` (src/snapshot.rs):
`mode & 0o100 != 0` applied to the parsed mode value. -/
def nodesIsExecutable (mode : Nat) : Bool := mode &&& 0o100 ≠ 0

/-- Value of the octal numeral written in the mode field, following the
spec's words that records carry `0<octal-mode>` (this is the claim's
reading, stated for comparison with the code's decimal parse). -/
def specOctalValue : List Char → Nat
  | [] => 0
  | c :: cs => specOctalValue cs + digitVal c * 8 ^ cs.length

/-- File modes of `git2::FileMode` that the program distinguishes
(`other` stands for any further mode value such as commit links). -/
inductive GitFileMode where
  | tree
  | blob
  | blobExecutable
  | link
  | other
deriving DecidableEq, Repr

/-- One entry of a git tree object: raw entry name, file mode, object id. -/
structure TreeEnt where
  name : String
  mode : GitFileMode
  oid : Nat
deriving DecidableEq, Repr

/-- Object of the underlying repository.  Modelled from the spec: the
object database is an external collaborator (spec section 1); blobs hold
text and trees hold entry lists. -/
inductive GitObj where
  | blobObj : List Char → GitObj
  | treeObj : List TreeEnt → GitObj
deriving DecidableEq, Repr

/-- Content-addressed object store.  Modelled from the spec: ids are
indices into an append-only object list, and writing an object that is
already present returns its existing id, which mirrors git's
content-addressing (equal content, equal id). -/
structure Repo where
  objs : List GitObj
deriving DecidableEq, Repr

/-- Look up a tree object (`Repository::find_tree`): fails when the id is
absent or names a blob. -/
def findTree (r : Repo) (o : Nat) : Option (List TreeEnt) :=
  match r.objs[o]? with
  | some (.treeObj es) => some es
  | _ => none

/-- Look up a blob object (`Repository::find_blob`). -/
def findBlob (r : Repo) (o : Nat) : Option (List Char) :=
  match r.objs[o]? with
  | some (.blobObj c) => some c
  | _ => none

/-- Write an object, returning its id: the existing id when the content is
already stored, otherwise a fresh id at the end of the store. -/
def writeObj (r : Repo) (ob : GitObj) : Repo × Nat :=
  match r.objs.findIdx? (· = ob) with
  | some i => (r, i)
  | none => (⟨r.objs ++ [ob]⟩, r.objs.length)

/-- Sort key git uses for tree entries: the raw name, with `/` appended
for subtree entries. -/
def gitKey (e : TreeEnt) : List Char :=
  e.name.data ++ (if e.mode = .tree then ['/'] else [])

/-- Bytewise (here: character-wise) lexicographic order on entry keys. -/
def keyLt : List Char → List Char → Bool
  | [], [] => false
  | [], _ :: _ => true
  | _ :: _, [] => false
  | a :: as, b :: bs =>
    if a.toNat < b.toNat then true
    else if b.toNat < a.toNat then false
    else keyLt as bs

/-- Insert a tree entry at its sorted position (`TreeBuilder::insert`
ordering). -/
def tbInsertSorted (e : TreeEnt) : List TreeEnt → List TreeEnt
  | [] => [e]
  | x :: xs => if keyLt (gitKey e) (gitKey x) then e :: x :: xs else x :: tbInsertSorted e xs

/-- Find a builder entry by name (`TreeBuilder::get`). -/
def tbGet (name : String) (es : List TreeEnt) : Option TreeEnt :=
  es.find? (fun e => e.name = name)

/-- Remove a builder entry by name (`TreeBuilder::remove`). -/
def tbRemove (name : String) (es : List TreeEnt) : List TreeEnt :=
  es.filter (fun e => e.name ≠ name)

/-- Insert a builder entry (`TreeBuilder::insert`). -/
def tbInsert (name : String) (mode : GitFileMode) (oid : Nat) (es : List TreeEnt) :
    List TreeEnt :=
  tbInsertSorted ⟨name, mode, oid⟩ es

/-- Error outcomes of `Database::append`: a repository lookup failure, the
structured `would replace` refusal, or a Rust panic (`unwrap`,
`assert_eq!`). -/
inductive AppendErr where
  | gitErr
  | wouldReplace
  | panicked
deriving DecidableEq, Repr

/-- Embedding of `Database::append_inner_create` (src/database/append.rs):
build fresh bulk trees for the remaining path, each with a marker entry
pointing at a freshly written empty blob (the source calls
`empty_blob_oid()` again here; content-addressing returns the same id). -/
def appendInnerCreate (r : Repo) (emptyBlob : Nat) (path : List String)
    (mode : GitFileMode) (obj : Nat) : Except AppendErr (Repo × Nat) :=
  match path with
  | [] => .error .panicked
  | head :: tail =>
    match tail with
    | [] =>
      .ok (writeObj (writeObj r (.blobObj [])).1
        (.treeObj (tbInsert (encodeChildName head) mode obj
          (tbInsert "0" .blob (writeObj r (.blobObj [])).2 []))))
    | _ :: _ =>
      match appendInnerCreate (writeObj r (.blobObj [])).1 emptyBlob tail mode obj with
      | .error e => .error e
      | .ok (r2, childOid) =>
        .ok (writeObj r2 (.treeObj (tbInsert (encodeChildName head) .tree childOid
          (tbInsert "0" .blob (writeObj r (.blobObj [])).2 []))))

/-- Embedding of `Database::append_inner` (src/database/append.rs).  The
builder starts from the existing tree; at the final component a present
entry is refused unless `canReplace`; at an intermediate component a
missing entry leads into `append_inner_create`, and a present entry is
*asserted* to be a tree (`assert_eq!`, a panic when it is not) before
descending.  The head entry is then removed if present and re-inserted. -/
def appendInner (r : Repo) (emptyBlob : Nat) (bigTree : Nat) (path : List String)
    (mode : GitFileMode) (obj : Nat) (canReplace : Bool) :
    Except AppendErr (Repo × Nat) :=
  match findTree r bigTree with
  | none => .error .gitErr
  | some orig =>
    match path with
    | [] => .error .panicked
    | head :: tail =>
      match tail with
      | [] =>
        if !canReplace && (tbGet (encodeChildName head) orig).isSome then
          .error .wouldReplace
        else
          .ok (writeObj r (.treeObj (tbInsert (encodeChildName head) mode obj
            (if (tbGet (encodeChildName head) orig).isSome
             then tbRemove (encodeChildName head) orig else orig))))
      | _ :: _ =>
        match tbGet (encodeChildName head) orig with
        | none =>
          match appendInnerCreate r emptyBlob tail mode obj with
          | .error e => .error e
          | .ok (r2, childOid) =>
            .ok (writeObj r2 (.treeObj (tbInsert (encodeChildName head) .tree childOid
              (if (tbGet (encodeChildName head) orig).isSome
               then tbRemove (encodeChildName head) orig else orig))))
        | some ent =>
          if ent.mode ≠ .tree then .error .panicked
          else
            match appendInner r emptyBlob ent.oid tail mode obj canReplace with
            | .error e => .error e
            | .ok (r2, childOid) =>
              .ok (writeObj r2 (.treeObj (tbInsert (encodeChildName head) .tree childOid
                (if (tbGet (encodeChildName head) orig).isSome
                 then tbRemove (encodeChildName head) orig else orig))))

/-- Embedding of `Database::append` (src/database/append.rs): write the
empty blob first, then run the recursion. -/
def appendDb (r : Repo) (bigTree : Nat) (path : List String) (mode : GitFileMode)
    (obj : Nat) (canReplace : Bool) : Except AppendErr (Repo × Nat) :=
  let p := writeObj r (.blobObj [])
  appendInner p.1 p.2 bigTree path mode obj canReplace

/-- Resolution of a bulk path in a tree: look up the encoded child name at
each level, descending only through tree-mode entries, and return the
`(mode, oid)` pair found at the last component.  This is the walk the
claims' "resolved at the encoded path" refers to. -/
def resolvePath (r : Repo) : Nat → List String → Option (GitFileMode × Nat)
  | _, [] => none
  | o, c :: rest =>
    match findTree r o with
    | none => none
    | some es =>
      match tbGet (encodeChildName c) es with
      | none => none
      | some ent =>
        match rest with
        | [] => some (ent.mode, ent.oid)
        | _ :: _ => if ent.mode = .tree then resolvePath r ent.oid rest else none

/-- Pointwise extension order on repositories: every stored object keeps
its id and content. -/
def RepoLe (r r' : Repo) : Prop :=
  ∀ (i : Nat) (ob : GitObj), r.objs[i]? = some ob → r'.objs[i]? = some ob

/-- File arm of `Database::plant_snapshot_inner` (src/database/snapshot.rs,
`SnapshotEntryValue::File`): the blob written for a file entry holds the
digest's lowercase hex followed by one newline, and the returned mode is
executable or plain according to the entry's flag. -/
def plantSnapshotFile (r : Repo) (digest : List Nat) (executable : Bool) :
    Repo × GitFileMode × Nat :=
  let mode := if executable then GitFileMode.blobExecutable else GitFileMode.blob
  let content := hexOfBytes digest ++ ['\n']
  let p := writeObj r (.blobObj content)
  (p.1, mode, p.2)

/-- Object kind a git tree entry reports (`TreeEntry::kind`), which git
derives from the entry's mode: trees are trees, blobs of any blob mode
(plain, executable, symlink) are blobs, and anything else (commit links)
is neither. -/
inductive ObjKind where
  | blobK
  | treeK
  | otherK
deriving DecidableEq, Repr

/-- Kind derived from a file mode, as git reports it for tree entries. -/
def kindOf : GitFileMode → ObjKind
  | .tree => .treeK
  | .blob => .blobK
  | .blobExecutable => .blobK
  | .link => .blobK
  | .other => .otherK

/-- Error outcomes of a traverser walk (`Traverser::traverse_from`):
exhausted recursion fuel (the model's bound), a repository lookup failure,
an `ensure!`/`bail!` invariant failure, or a Rust panic (`unwrap`). -/
inductive TravErr where
  | fuel
  | gitErr
  | invariant
  | panicked
deriving DecidableEq, Repr

/-- Marker-blob check of `Traverser::ensure_blob_is_empty`
(src/database/traverse.rs): when a cached empty-blob id is present the oid
must equal it; otherwise the blob is looked up and must be empty.  The
source never assigns the cache field, so the cache is read-only here as
well. -/
def ensureBlobEmpty (r : Repo) : Option Nat → Nat → Except TravErr Unit
  | some expected, oid => if oid = expected then .ok () else .error .invariant
  | none, oid =>
    match findBlob r oid with
    | none => .error .gitErr
    | some content => if content = [] then .ok () else .error .invariant

/-- Combined walker for `Traverser::traverse_from`
(src/database/traverse.rs) with the default callbacks (`on_tree` descends,
`on_blob`/`on_link` do nothing).  The `inl` state visits a tree: its first
entry must decode to the marker, have plain blob mode, and refer to an
empty blob, while an empty tree skips the loop entirely.  The `inr` state
runs the per-entry loop over the remaining entries: each must decode to a
child (a further marker is an `unwrap` panic), blob-kind entries invoke
the do-nothing callbacks, tree-kind entries recurse, and any other kind is
an error.  The `fuel` argument bounds the recursion (the source relies on
git's acyclicity); it decreases at every step. -/
def travWalk (r : Repo) : Nat → Option Nat → Sum Nat (List TreeEnt) → Except TravErr Unit
  | 0, _, _ => .error .fuel
  | fuel + 1, cache, .inl o =>
    match findTree r o with
    | none => .error .gitErr
    | some es =>
      match es with
      | [] => .ok ()
      | e0 :: rest =>
        match BulkTreeEntryName.decode e0.name with
        | none => .error .invariant
        | some n =>
          if n = .marker then
            if e0.mode = .blob then
              (match ensureBlobEmpty r cache e0.oid with
               | .error err => .error err
               | .ok _ => travWalk r fuel cache (.inr rest))
            else .error .invariant
          else .error .invariant
  | _ + 1, _, .inr [] => .ok ()
  | fuel + 1, cache, .inr (e :: rest) =>
    match BulkTreeEntryName.decode e.name with
    | none => .error .invariant
    | some .marker => .error .panicked
    | some (.child _) =>
      match kindOf e.mode with
      | .blobK => travWalk r fuel cache (.inr rest)
      | .treeK =>
        (match travWalk r fuel cache (.inl e.oid) with
         | .error err => .error err
         | .ok _ => travWalk r fuel cache (.inr rest))
      | .otherK => .error .invariant

/-- Tree-visit entry point of the walker. -/
def traverseFrom (r : Repo) (fuel : Nat) (cache : Option Nat) (o : Nat) :
    Except TravErr Unit :=
  travWalk r fuel cache (.inl o)

/-- Entry-loop entry point of the walker. -/
def traverseEntries (r : Repo) (fuel : Nat) (cache : Option Nat)
    (es : List TreeEnt) : Except TravErr Unit :=
  travWalk r fuel cache (.inr es)

/-- Embedding of `Traverser::traverse`: a walk from the root with the
empty-blob cache initially unset. -/
def traverseDb (r : Repo) (fuel : Nat) (o : Nat) : Except TravErr Unit :=
  traverseFrom r fuel none o

/-- Trees the walk can reach from a root: the root itself, and recursively
every tree-kind entry after the first slot of a reached tree. -/
inductive ReachTree (r : Repo) : Nat → Nat → Prop where
  | refl (o : Nat) : ReachTree r o o
  | step {o o' : Nat} {es : List TreeEnt} {e : TreeEnt} :
      findTree r o = some es → e ∈ es.tail → kindOf e.mode = .treeK →
      ReachTree r e.oid o' → ReachTree r o o'

/-- Filesystem contents for the blob store model: a finite map from paths
to file contents.  Directories are implicit (directory creation in
`FilesystemRealBlobStorage::store` is elided). -/
structure FsState where
  files : List (String × List Char)
deriving DecidableEq, Repr

/-- File-existence test (`Path::is_file`). -/
def fsIsFile (st : FsState) (p : String) : Bool :=
  (st.files.find? (fun f => f.1 = p)).isSome

/-- Read a file's contents. -/
def fsRead (st : FsState) (p : String) : Option (List Char) :=
  (st.files.find? (fun f => f.1 = p)).map (fun f => f.2)

/-- Create or overwrite a file. -/
def fsWrite (st : FsState) (p : String) (c : List Char) : FsState :=
  ⟨(p, c) :: st.files.filter (fun f => f.1 ≠ p)⟩

/-- Remove a file (`fs::remove_file`). -/
def fsRemove (st : FsState) (p : String) : FsState :=
  ⟨st.files.filter (fun f => f.1 ≠ p)⟩

/-- Sharded relative path of a blob
(`FilesystemRealBlobStorage::blob_relative_path`): the 64-hex digest split
after three characters (`String::split_off(3)`). -/
def blobRelPath (digest : List Nat) : String × String :=
  let hex := hexOfBytes digest
  (⟨hex.take 3⟩, ⟨hex.drop 3⟩)

/-- Canonical path of a blob (`FilesystemRealBlobStorage::blob_path`). -/
def blobPathOf (root : String) (digest : List Nat) : String :=
  root ++ "/blobs/" ++ (blobRelPath digest).1 ++ "/" ++ (blobRelPath digest).2

/-- Staging path of a blob (`FilesystemRealBlobStorage::partial_path`). -/
def stagingPathOf (root : String) (digest : List Nat) : String :=
  root ++ "/partial/" ++ (blobRelPath digest).1 ++ "/" ++ (blobRelPath digest).2

/-- Outcome of `FilesystemRealBlobStorage::store`: success, a Rust panic
(`assert!` / `assert_eq!`), or a recoverable I/O error. -/
inductive StoreOutcome where
  | okDone
  | panicked
  | ioErr
deriving DecidableEq, Repr

/-- Embedding of `FilesystemRealBlobStorage::store` (src/blob_store.rs).
Hashing is abstracted by `hashFn`, as the source shells out to
`sha256sum`.  Faithful points: an existing canonical file short-circuits;
a missing source is an `assert!` panic; an existing staging file is a
recoverable `create_new` failure; a digest mismatch is the `assert_eq!`
panic inside `check_sha256sum`, which leaves the freshly written staging
file in place; only on a match is the canonical file created
(`hard_link`, modelled as a copy) and the staging file removed. -/
def storeBlob (hashFn : List Char → List Nat) (st : FsState) (root : String)
    (digest : List Nat) (src : String) : StoreOutcome × FsState :=
  if fsIsFile st (blobPathOf root digest) then (.okDone, st)
  else
    match fsRead st src with
    | none => (.panicked, st)
    | some content =>
      if fsIsFile st (stagingPathOf root digest) then (.ioErr, st)
      else
        let st1 := fsWrite st (stagingPathOf root digest) content
        if hashFn content ≠ digest then (.panicked, st1)
        else
          let st2 := fsWrite st1 (blobPathOf root digest) content
          (.okDone, fsRemove st2 (stagingPathOf root digest))

/-- Inode table values of the projection filesystem
(src/database/fs.rs `InodeEntry`). -/
inductive InodeEntry where
  | file (oid : Nat) (executable : Bool)
  | link (oid : Nat)
  | tree (oid : Nat) (parent : Nat)
deriving DecidableEq, Repr

/-- Mutable state of `DatabaseFilesystem`: the inode map, the
slot-to-inode cache `family_tree`, and the allocation counter. -/
structure FsTable where
  inodes : List (Nat × InodeEntry)
  familyTree : List ((Nat × Nat) × Nat)
  nextInode : Nat
deriving DecidableEq, Repr

/-- Initial state of `DatabaseFilesystem::new`: the root inode `1` maps to
the seed tree and is its own parent; the next inode is `2`. -/
def fsTableInit (treeOid : Nat) : FsTable :=
  ⟨[(1, .tree treeOid 1)], [], 2⟩

/-- Embedding of `DatabaseFilesystem::get_inode` (src/database/fs.rs):
allocate the next inode number (the counter is bumped even on the `bail`
paths, which return `none`), then classify the tree entry.  Note the
source's inverted `executable` flag: plain-blob mode yields `true` and
executable-blob mode yields `false`. -/
def getInode (_r : Repo) (st : FsTable) (parent : Nat) (e : TreeEnt) :
    FsTable × Option Nat :=
  let ino := st.nextInode
  let st' := { st with nextInode := ino + 1 }
  match kindOf e.mode with
  | .blobK =>
    if e.mode = .link then
      ({ st' with inodes := (ino, .link e.oid) :: st'.inodes }, some ino)
    else if e.mode = .blob then
      ({ st' with inodes := (ino, .file e.oid true) :: st'.inodes }, some ino)
    else if e.mode = .blobExecutable then
      ({ st' with inodes := (ino, .file e.oid false) :: st'.inodes }, some ino)
    else (st', none)
  | .treeK =>
    ({ st' with inodes := (ino, .tree e.oid parent) :: st'.inodes }, some ino)
  | .otherK => (st', none)

/-- File branch of `DatabaseFilesystem::fetch_attr` (src/database/fs.rs):
perm is `0o444 | (executable ? 0 : 0o111)` with the stored (inverted)
flag, and size is the `size` field of the shadow parsed from the blob's
content (defaulting to `0` when the field is absent), *not* the blob's
own length.  Returns `(perm, size)`; errors collapse to `none`. -/
def fetchAttrFile (r : Repo) (oid : Nat) (executable : Bool) : Option (Nat × Nat) :=
  let perm := 0o444 ||| (if executable then 0 else 0o111)
  match findBlob r oid with
  | none => none
  | some content =>
    match shadowFromChars content with
    | none => none
    | some sh => some (perm, sh.size.getD 0)

/-- Lookup in the `family_tree` slot cache. -/
def famLookup (ft : List ((Nat × Nat) × Nat)) (k : Nat × Nat) : Option Nat :=
  (ft.find? (fun p => p.1 = k)).map (fun p => p.2)

/-- Slot resolution of `DatabaseFilesystem::lookup` (src/database/fs.rs):
consult `family_tree` at `(parent, i)`; on a miss allocate via `get_inode`
and cache the new inode under `(parent, i)`. -/
def lookupSlot (r : Repo) (st : FsTable) (parent : Nat) (i : Nat) (e : TreeEnt) :
    FsTable × Option Nat :=
  match famLookup st.familyTree (parent, i) with
  | some ino => (st, some ino)
  | none =>
    match getInode r st parent e with
    | (st1, some ino) =>
      ({ st1 with familyTree := ((parent, i), ino) :: st1.familyTree }, some ino)
    | (st1, none) => (st1, none)

/-- Slot resolution of `DatabaseFilesystem::readdir` (src/database/fs.rs,
the per-entry closure): consult `family_tree` at `(ino, i)` with `ino` the
directory inode; on a miss allocate via `get_inode` — but the insertion
uses `(ino, i)` with `ino` rebound to the *new child inode* (the source
shadows the variable), so the cache entry is keyed by the child, not the
directory. -/
def readdirSlot (r : Repo) (st : FsTable) (dirIno : Nat) (i : Nat) (e : TreeEnt) :
    FsTable × Option Nat :=
  match famLookup st.familyTree (dirIno, i) with
  | some ino => (st, some ino)
  | none =>
    match getInode r st dirIno e with
    | (st1, some ino) =>
      ({ st1 with familyTree := ((ino, i), ino) :: st1.familyTree }, some ino)
    | (st1, none) => (st1, none)

/-! Utility lemmas: decimal printing and parsing. -/

/-- Parsing distributes over list append. -/
theorem parseDigitsAux_append (xs ys : List Char) (acc : Nat) :
    parseDigitsAux (xs ++ ys) acc =
      match parseDigitsAux xs acc with
      | some a => parseDigitsAux ys a
      | none => none := by
  induction xs generalizing acc with
  | nil => simp [parseDigitsAux]
  | cons c cs ih =>
    simp only [List.cons_append, parseDigitsAux]
    by_cases h : isDigitCh c = true
    · simp [h, ih]
    · simp [h]

/-- Digit characters decode back to their values. -/
theorem digitVal_digitChar (m : Nat) (h : m < 10) : digitVal (digitChar m) = m := by
  interval_cases m <;> decide

/-- Digit characters satisfy the digit class. -/
theorem isDigitCh_digitChar (m : Nat) (h : m < 10) : isDigitCh (digitChar m) = true := by
  interval_cases m <;> decide

/-- Every character produced by `natDigitsRev` is a digit. -/
theorem natDigitsRev_digits (n : Nat) : ∀ c ∈ natDigitsRev n, isDigitCh c = true := by
  induction n using Nat.strong_induction_on with
  | _ n ih =>
    match n with
    | 0 => intro c hc; simp [natDigitsRev] at hc
    | m + 1 =>
      intro c hc
      rw [natDigitsRev] at hc
      rcases List.mem_cons.mp hc with h | h
      · subst h; exact isDigitCh_digitChar _ (Nat.mod_lt _ (by omega))
      · exact ih ((m + 1) / 10) (Nat.div_lt_self (Nat.succ_pos m) (by omega)) c h

/-- Every character of the decimal rendering is a digit. -/
theorem natPrint_digits (n : Nat) : ∀ c ∈ natPrint n, isDigitCh c = true := by
  intro c hc
  unfold natPrint at hc
  by_cases h : n = 0
  · simp [h] at hc; subst hc; decide
  · simp [h] at hc
    exact natDigitsRev_digits n c hc

/-- Core inverse: parsing the reversed digit list of `n` scales the
accumulator and adds `n`. -/
theorem parseDigitsAux_natDigitsRev (n : Nat) : ∀ acc,
    parseDigitsAux (natDigitsRev n).reverse acc =
      some (acc * 10 ^ (natDigitsRev n).length + n) := by
  induction n using Nat.strong_induction_on with
  | _ n ih =>
    match n with
    | 0 => intro acc; simp [natDigitsRev, parseDigitsAux]
    | m + 1 =>
      intro acc
      rw [natDigitsRev, List.reverse_cons, parseDigitsAux_append,
        ih ((m + 1) / 10) (Nat.div_lt_self (Nat.succ_pos m) (by omega))]
      have hd : isDigitCh (digitChar ((m + 1) % 10)) = true :=
        isDigitCh_digitChar _ (Nat.mod_lt _ (by omega))
      simp only [parseDigitsAux, hd, if_true,
        digitVal_digitChar _ (Nat.mod_lt _ (by omega)), List.length_cons]
      congr 1
      have := Nat.div_add_mod (m + 1) 10
      ring_nf
      omega

/-- The digit list of a positive number is non-empty. -/
theorem natDigitsRev_ne_nil (n : Nat) (h : n ≠ 0) : natDigitsRev n ≠ [] := by
  match n with
  | 0 => exact absurd rfl h
  | m + 1 => rw [natDigitsRev]; simp

/-- Parsing a non-empty list runs the accumulator parser. -/
theorem parseDigits_of_ne_nil (cs : List Char) (h : cs ≠ []) :
    parseDigits cs = parseDigitsAux cs 0 := by
  match cs with
  | [] => exact absurd rfl h
  | c :: rest => rfl

/-- Round trip: parsing the decimal rendering of `n` yields `n`. -/
theorem parseDigits_natPrint (n : Nat) : parseDigits (natPrint n) = some n := by
  by_cases h : n = 0
  · subst h; decide
  · unfold natPrint
    simp only [h, if_false]
    rw [parseDigits_of_ne_nil _ (by
      intro hrev
      exact natDigitsRev_ne_nil n h (List.reverse_eq_nil_iff.mp hrev)),
      parseDigitsAux_natDigitsRev]
    simp

/-- The decimal rendering is never empty. -/
theorem natPrint_ne_nil (n : Nat) : natPrint n ≠ [] := by
  unfold natPrint
  by_cases h : n = 0
  · simp [h]
  · simp only [h, if_false]
    intro hrev
    exact natDigitsRev_ne_nil n h (List.reverse_eq_nil_iff.mp hrev)

/-- A digit character is not a plus sign, newline, space or CR. -/
theorem isDigitCh_excludes (c : Char) (h : isDigitCh c = true) :
    c ≠ '+' ∧ c ≠ '\n' ∧ c ≠ ' ' ∧ c ≠ '\r' := by
  refine ⟨?_, ?_, ?_, ?_⟩ <;> (intro he; subst he; revert h; decide)

/-- Stripping the sign is the identity on lists that do not start with a
plus. -/
theorem stripPlus_of_head_ne (c : Char) (rest : List Char) (h : c ≠ '+') :
    stripPlus (c :: rest) = c :: rest := by
  simp [stripPlus, h]

/-- Rust `u64` parsing inverts decimal rendering for values in range. -/
theorem rustParseU64_natPrint (n : Nat) (h : n < 2 ^ 64) :
    rustParseU64 (natPrint n) = some n := by
  have hstrip : stripPlus (natPrint n) = natPrint n := by
    match hcs : natPrint n with
    | [] => exact absurd hcs (natPrint_ne_nil n)
    | c :: rest =>
      have hd : isDigitCh c = true := natPrint_digits n c (by rw [hcs]; simp)
      exact stripPlus_of_head_ne c rest (isDigitCh_excludes c hd).1
  unfold rustParseU64
  rw [hstrip, parseDigits_natPrint]
  simp only [if_pos (by omega : n < 2 ^ 64)]

/-! Utility lemmas: hex encoding and decoding. -/

/-- Hex digit characters decode back to their values. -/
theorem hexDigitVal_hexDigitChar (m : Nat) (h : m < 16) :
    hexDigitVal (hexDigitChar m) = some m := by
  interval_cases m <;> decide

/-- Hex digit characters lie in the regex class `[a-z0-9]`. -/
theorem isHashChar_hexDigitChar (m : Nat) (h : m < 16) :
    isHashChar (hexDigitChar m) = true := by
  interval_cases m <;> decide

/-- Hash-class characters are not characters with special roles in the
shadow formats. -/
theorem isHashChar_excludes (c : Char) (h : isHashChar c = true) :
    c ≠ '\n' ∧ c ≠ ' ' ∧ c ≠ '\r' := by
  refine ⟨?_, ?_, ?_⟩ <;> (intro he; subst he; revert h; decide)

/-- Length of a hex encoding. -/
theorem hexOfBytes_length (bs : List Nat) : (hexOfBytes bs).length = 2 * bs.length := by
  induction bs with
  | nil => rfl
  | cons b rest ih => simp [hexOfBytes, byteHex, ih]; omega

/-- Every character of a hex encoding of bytes is in the hash class. -/
theorem hexOfBytes_hashChars (bs : List Nat) (hb : ∀ b ∈ bs, b < 256) :
    ∀ c ∈ hexOfBytes bs, isHashChar c = true := by
  induction bs with
  | nil => intro c hc; simp [hexOfBytes] at hc
  | cons b rest ih =>
    intro c hc
    have hblt : b < 256 := hb b (by simp)
    simp only [hexOfBytes, byteHex, List.cons_append, List.mem_cons] at hc
    rcases hc with h | h | h
    · subst h
      exact isHashChar_hexDigitChar _ ((Nat.div_lt_iff_lt_mul (by omega)).mpr (by omega))
    · subst h; exact isHashChar_hexDigitChar _ (Nat.mod_lt _ (by omega))
    · exact ih (fun x hx => hb x (by simp [hx])) c h

/-- Unfolding equation for the hex decoder on two leading characters. -/
theorem hexDecodeBytes_cons (c1 c2 : Char) (cs : List Char) :
    hexDecodeBytes (c1 :: c2 :: cs) =
      match hexDigitVal c1, hexDigitVal c2, hexDecodeBytes cs with
      | some h, some l, some bs => some ((h * 16 + l) :: bs)
      | _, _, _ => none := rfl

/-- Hex decoding inverts hex encoding on byte lists. -/
theorem hexDecodeBytes_hexOfBytes (bs : List Nat) (hb : ∀ b ∈ bs, b < 256) :
    hexDecodeBytes (hexOfBytes bs) = some bs := by
  induction bs with
  | nil => rfl
  | cons b rest ih =>
    have hblt : b < 256 := hb b (by simp)
    have h1 : b / 16 < 16 := (Nat.div_lt_iff_lt_mul (by omega)).mpr (by omega)
    have h2 : b % 16 < 16 := Nat.mod_lt _ (by omega)
    have hrec := ih (fun x hx => hb x (by simp [hx]))
    have hb16 : b / 16 * 16 + b % 16 = b := by omega
    have hshape : hexOfBytes (b :: rest) =
        hexDigitChar (b / 16) :: hexDigitChar (b % 16) :: hexOfBytes rest := rfl
    rw [hshape, hexDecodeBytes_cons, hexDigitVal_hexDigitChar _ h1,
      hexDigitVal_hexDigitChar _ h2, hrec]
    simp [hb16]

/-- The 32-byte decoder inverts the encoding of a 32-byte digest. -/
theorem hexDecode32_hexOfBytes (bs : List Nat) (hlen : bs.length = 32)
    (hb : ∀ b ∈ bs, b < 256) : hexDecode32 (hexOfBytes bs) = some bs := by
  unfold hexDecode32
  rw [hexOfBytes_length, hlen]
  simp [hexDecodeBytes_hexOfBytes bs hb]

/-- The 32-byte decoder rejects inputs whose length is not 64. -/
theorem hexDecode32_length_ne (cs : List Char) (h : cs.length ≠ 64) :
    hexDecode32 cs = none := by
  simp [hexDecode32, h]

/-! Utility lemmas: prefix stripping and splitting. -/

/-- Stripping a present leading sequence returns the remainder. -/
theorem stripPfx_append (p x : List Char) : stripPfx p (p ++ x) = some x := by
  induction p with
  | nil => rfl
  | cons c cs ih => simp [stripPfx, ih]

/-- A successful strip reconstructs the input. -/
theorem stripPfx_eq_some (p cs r : List Char) (h : stripPfx p cs = some r) :
    cs = p ++ r := by
  induction p generalizing cs with
  | nil => simpa [stripPfx] using h
  | cons c ps ih =>
    match cs with
    | [] => simp [stripPfx] at h
    | d :: ds =>
      simp only [stripPfx] at h
      by_cases hd : d = c
      · simp only [hd, if_pos rfl] at h
        rw [hd, List.cons_append, ih ds h]
      · simp [hd] at h

/-- Unfolding of the newline split at a leading newline. -/
theorem splitNl_cons_nl (rest : List Char) : splitNl ('\n' :: rest) = [] :: splitNl rest := by
  simp [splitNl]

/-- Unfolding of the newline split at a leading non-newline character. -/
theorem splitNl_cons_ne (c : Char) (rest : List Char) (hc : c ≠ '\n') :
    splitNl (c :: rest) =
      match splitNl rest with
      | l :: ls => (c :: l) :: ls
      | [] => [[c]] := by
  simp [splitNl, hc]

/-- Splitting a newline-free list yields one piece. -/
theorem splitNl_no_nl (a : List Char) (h : '\n' ∉ a) : splitNl a = [a] := by
  induction a with
  | nil => rfl
  | cons c cs ih =>
    have hc : c ≠ '\n' := fun he => h (by simp [he])
    have hcs : '\n' ∉ cs := fun he => h (by simp [he])
    simp [splitNl, hc, ih hcs]

/-- Splitting around the first newline of a composite list. -/
theorem splitNl_append (a b : List Char) (h : '\n' ∉ a) :
    splitNl (a ++ '\n' :: b) = a :: splitNl b := by
  induction a with
  | nil => simp [splitNl]
  | cons c cs ih =>
    have hc : c ≠ '\n' := fun he => h (by simp [he])
    have hcs : '\n' ∉ cs := fun he => h (by simp [he])
    simp only [List.cons_append, splitNl, if_neg hc, List.append_eq, ih hcs]

/-- The split of a list is never the empty list of pieces. -/
theorem splitNl_ne_nil (cs : List Char) : splitNl cs ≠ [] := by
  match cs with
  | [] => simp [splitNl]
  | c :: rest =>
    simp only [splitNl]
    by_cases hc : c = '\n'
    · simp [hc]
    · simp only [if_neg hc]
      match splitNl rest with
      | l :: ls => simp
      | [] => simp

/-- A list not ending in a newline splits into pieces whose final piece is
non-empty. -/
theorem splitNl_last_shape (cs : List Char) (hne : cs ≠ [])
    (h : endsNl cs = false) :
    ∃ pre lastPiece, splitNl cs = pre ++ [lastPiece] ∧ lastPiece ≠ [] := by
  induction cs with
  | nil => exact absurd rfl hne
  | cons c rest ih =>
    match rest with
    | [] =>
      have hc : c ≠ '\n' := by
        intro he; rw [he] at h; exact absurd h (by decide)
      exact ⟨[], [c], by simp [splitNl, hc], by simp⟩
    | d :: ds =>
      have hrest : endsNl (d :: ds) = false := h
      obtain ⟨pre, lp, hpre, hlp⟩ := ih (by simp) hrest
      by_cases hc : c = '\n'
      · subst hc
        exact ⟨[] :: pre, lp, by rw [splitNl_cons_nl, hpre]; rfl, hlp⟩
      · match pre, hpre with
        | [], hpre =>
          refine ⟨[], c :: lp, ?_, by simp⟩
          rw [splitNl_cons_ne c _ hc, hpre]
          rfl
        | p0 :: ps, hpre =>
          refine ⟨(c :: p0) :: ps, lp, ?_, hlp⟩
          rw [splitNl_cons_ne c _ hc, hpre]
          rfl

/-- A list ending in a newline, appended form. -/
theorem endsNl_append (a : List Char) : endsNl (a ++ ['\n']) = true := by
  induction a with
  | nil => rfl
  | cons c cs ih =>
    match cs with
    | [] => rfl
    | d :: ds => simpa [endsNl] using ih

/-- Splitting at the first space of a composite list. -/
theorem splitOnceSpace_append (a b : List Char) (h : ' ' ∉ a) :
    splitOnceSpace (a ++ ' ' :: b) = some (a, b) := by
  induction a with
  | nil => simp [splitOnceSpace]
  | cons c cs ih =>
    have hc : c ≠ ' ' := fun he => h (by simp [he])
    have hcs : ' ' ∉ cs := fun he => h (by simp [he])
    simp [splitOnceSpace, hc, ih hcs]

/-- Taking digits from a digit list followed by a non-digit stops exactly
at the boundary. -/
theorem takeWhile_digits (ds r : List Char) (hd : ∀ c ∈ ds, isDigitCh c = true)
    (hr : ∀ x rs, r = x :: rs → isDigitCh x = false) :
    (ds ++ r).takeWhile isDigitCh = ds ∧ (ds ++ r).dropWhile isDigitCh = r := by
  induction ds with
  | nil =>
    simp only [List.nil_append]
    match r with
    | [] => simp
    | x :: rs => simp [List.takeWhile, List.dropWhile, hr x rs rfl]
  | cons c cs ih =>
    have hc : isDigitCh c = true := hd c (by simp)
    have ihr := ih (fun x hx => hd x (by simp [hx]))
    simp [List.takeWhile, List.dropWhile, hc, ihr.1, ihr.2]

/-! Shadow-record round trips and rejection lemmas. -/

/-- The hex field of a 32-byte digest has no newline, space, or CR. -/
theorem hexOfBytes_no_special (h : List Nat) (hb : ∀ b ∈ h, b < 256) :
    '\n' ∉ hexOfBytes h ∧ ' ' ∉ hexOfBytes h ∧ '\r' ∉ hexOfBytes h := by
  refine ⟨?_, ?_, ?_⟩ <;>
    (intro hmem
     have := hexOfBytes_hashChars h hb _ hmem
     exact absurd this (by decide))

/-- Decimal digit lists have no newline, space, or CR. -/
theorem digits_no_special (ds : List Char) (hd : ∀ c ∈ ds, isDigitCh c = true) :
    '\n' ∉ ds ∧ ' ' ∉ ds ∧ '\r' ∉ ds := by
  refine ⟨?_, ?_, ?_⟩ <;>
    (intro hmem
     have := hd _ hmem
     exact absurd this (by decide))

/-- Round trip for the `src/blob.rs` shadow record: parsing the canonical
text of a `BlobShadow` recovers it. -/
theorem blobShadow_roundtrip (h : List Nat) (sz : Nat) (hlen : h.length = 32)
    (hb : ∀ b ∈ h, b < 256) (hsz : sz < 2 ^ 64) :
    blobShadowFromChars (blobShadowToChars ⟨h, sz⟩) = some ⟨h, sz⟩ := by
  have hhex := hexOfBytes_no_special h hb
  have hdig := digits_no_special (natPrint sz) (natPrint_digits sz)
  have hA : '\n' ∉ "sha256 ".data ++ hexOfBytes h := by
    intro hmem
    rcases List.mem_append.mp hmem with hx | hx
    · exact absurd hx (by decide)
    · exact hhex.1 hx
  have hC : '\n' ∉ "size ".data ++ natPrint sz := by
    intro hmem
    rcases List.mem_append.mp hmem with hx | hx
    · exact absurd hx (by decide)
    · exact hdig.1 hx
  have hsplit : splitNl (blobShadowToChars ⟨h, sz⟩) =
      ("sha256 ".data ++ hexOfBytes h) :: ("size ".data ++ natPrint sz) :: [[]] := by
    unfold blobShadowToChars
    have e1 : "sha256 ".data ++ hexOfBytes h ++ '\n' ::
        ("size ".data ++ natPrint sz ++ ['\n']) =
        ("sha256 ".data ++ hexOfBytes h) ++ '\n' ::
        (("size ".data ++ natPrint sz) ++ '\n' :: []) := by simp
    rw [e1, splitNl_append _ _ hA, splitNl_append _ _ hC]
    rfl
  have hsos1 : splitOnceSpace ("sha256 ".data ++ hexOfBytes h) =
      some ("sha256".data, hexOfBytes h) := by
    have : "sha256 ".data ++ hexOfBytes h = "sha256".data ++ ' ' :: hexOfBytes h := rfl
    rw [this]
    exact splitOnceSpace_append _ _ (by decide)
  have hsos2 : splitOnceSpace ("size ".data ++ natPrint sz) =
      some ("size".data, natPrint sz) := by
    have : "size ".data ++ natPrint sz = "size".data ++ ' ' :: natPrint sz := rfl
    rw [this]
    exact splitOnceSpace_append _ _ (by decide)
  unfold blobShadowFromChars
  rw [hsplit]
  simp only [hsos1, hsos2, hexDecode32_hexOfBytes h hlen hb, rustParseU64_natPrint sz hsz]
  simp

/-- Round trip for the `src/shadow.rs` shadow record, covering both the
present-size and absent-size forms. -/
theorem shadow_roundtrip (h : List Nat) (osz : Option Nat) (hlen : h.length = 32)
    (hb : ∀ b ∈ h, b < 256) (hosz : ∀ n, osz = some n → n < 2 ^ 64) :
    shadowFromChars (shadowToChars ⟨h, osz⟩) = some ⟨h, osz⟩ := by
  have hlen64 : (hexOfBytes h).length = 64 := by rw [hexOfBytes_length, hlen]
  have hall : (hexOfBytes h).all isHashChar = true :=
    List.all_eq_true.mpr (fun c hc => hexOfBytes_hashChars h hb c hc)
  have htake : ∀ (t : List Char), (hexOfBytes h ++ t).take 64 = hexOfBytes h := by
    intro t
    rw [← hlen64]
    exact List.take_left _ _
  have hdrop : ∀ (t : List Char), (hexOfBytes h ++ t).drop 64 = t := by
    intro t
    rw [← hlen64]
    exact List.drop_left _ _
  match osz with
  | none =>
    have hto : shadowToChars ⟨h, none⟩ = "sha256 ".data ++ (hexOfBytes h ++ ['\n']) := by
      unfold shadowToChars
      simp
    rw [hto]
    unfold shadowFromChars
    rw [stripPfx_append]
    simp only [htake, hdrop, hlen64, hall]
    simp [hexDecode32_hexOfBytes h hlen hb]
  | some n =>
    have hn : n < 2 ^ 64 := hosz n rfl
    have hto : shadowToChars ⟨h, some n⟩ =
        "sha256 ".data ++ (hexOfBytes h ++ '\n' ::
          ("size ".data ++ (natPrint n ++ ['\n']))) := by
      unfold shadowToChars
      simp
    rw [hto]
    unfold shadowFromChars
    rw [stripPfx_append]
    simp only [htake, hdrop, hlen64, hall]
    have htw := takeWhile_digits (natPrint n) ['\n'] (natPrint_digits n)
      (by intro x rs hx; cases hx; decide)
    have hne : "size ".data ++ (natPrint n ++ ['\n']) ≠ [] := by simp
    simp only [decide_True, Bool.and_self, if_true, hne, if_neg]
    rw [stripPfx_append]
    simp [htw.1, htw.2, natPrint_ne_nil n,
      hexDecode32_hexOfBytes h hlen hb, rustParseU64_natPrint n hn]

/-- The `src/blob.rs` parser rejects every input that does not end in a
newline. -/
theorem blobShadow_reject_not_nl (cs : List Char) (h : endsNl cs = false) :
    blobShadowFromChars cs = none := by
  match cs with
  | [] => rfl
  | c :: rest =>
    obtain ⟨pre, lp, hpre, hlp⟩ := splitNl_last_shape (c :: rest) (by simp) h
    unfold blobShadowFromChars
    rw [hpre]
    match pre with
    | [] => rfl
    | [a] => rfl
    | [a, b] =>
      have : ([a, b] ++ [lp]) = [a, b, lp] := rfl
      rw [this]
      simp [hlp]
    | a :: b :: c' :: ds =>
      have hshape : ((a :: b :: c' :: ds) ++ [lp]) = a :: b :: c' :: (ds ++ [lp]) := rfl
      rw [hshape]
      cases hds : ds ++ [lp] with
      | nil => exact absurd hds (by simp)
      | cons x xs => rfl

/-- A successfully parsed `src/shadow.rs` record always ends in a newline. -/
theorem shadow_accept_shape (cs : List Char) (s : ShadowRec)
    (h : shadowFromChars cs = some s) : ∃ a, cs = a ++ ['\n'] := by
  unfold shadowFromChars at h
  split at h
  · cases h
  · next rest hstrip =>
    have hcs := stripPfx_eq_some _ _ _ hstrip
    split at h
    · split at h
      · next tail hdrop =>
        have hrest : rest = rest.take 64 ++ '\n' :: tail := by
          conv_lhs => rw [← List.take_append_drop 64 rest]
          rw [hdrop]
        split at h
        · next htail =>
          subst htail
          refine ⟨"sha256 ".data ++ rest.take 64, ?_⟩
          rw [hcs]
          conv_lhs => rw [hrest]
          simp
        · split at h
          · cases h
          · next rest3 hsize =>
            have htail2 := stripPfx_eq_some _ _ _ hsize
            split at h
            · next hcond2 =>
              have hr3 : rest3 = rest3.takeWhile isDigitCh ++ ['\n'] := by
                conv_lhs => rw [← List.takeWhile_append_dropWhile isDigitCh rest3]
                rw [hcond2.2]
              refine ⟨"sha256 ".data ++ rest.take 64 ++ '\n' ::
                ("size ".data ++ rest3.takeWhile isDigitCh), ?_⟩
              rw [hcs]
              conv_lhs => rw [hrest, htail2, hr3]
              simp
            · cases h
      · cases h
    · cases h

/-- The `src/shadow.rs` parser rejects every input that does not end in a
newline. -/
theorem shadow_reject_not_nl (cs : List Char) (h : endsNl cs = false) :
    shadowFromChars cs = none := by
  cases hv : shadowFromChars cs with
  | none => rfl
  | some s =>
    obtain ⟨a, ha⟩ := shadow_accept_shape cs s hv
    rw [ha, endsNl_append] at h
    cases h

/-- CR line endings are rejected by the `src/blob.rs` parser: the first
line then carries a trailing CR, so its value field has 65 characters and
hex decoding fails. -/
theorem blobShadow_reject_cr (h : List Nat) (ds : List Char) (hlen : h.length = 32)
    (hb : ∀ b ∈ h, b < 256) (hdig : ∀ c ∈ ds, isDigitCh c = true) :
    blobShadowFromChars ("sha256 ".data ++ hexOfBytes h ++ '\r' :: '\n' ::
      ("size ".data ++ ds ++ ['\r', '\n'])) = none := by
  have hhex := hexOfBytes_no_special h hb
  have hdsp := digits_no_special ds hdig
  have hA : '\n' ∉ "sha256 ".data ++ (hexOfBytes h ++ ['\r']) := by
    intro hmem
    rcases List.mem_append.mp hmem with hx | hx
    · exact absurd hx (by decide)
    · rcases List.mem_append.mp hx with hy | hy
      · exact hhex.1 hy
      · simp at hy
  have hC : '\n' ∉ "size ".data ++ (ds ++ ['\r']) := by
    intro hmem
    rcases List.mem_append.mp hmem with hx | hx
    · exact absurd hx (by decide)
    · rcases List.mem_append.mp hx with hy | hy
      · exact hdsp.1 hy
      · simp at hy
  have e1 : "sha256 ".data ++ hexOfBytes h ++ '\r' :: '\n' ::
      ("size ".data ++ ds ++ ['\r', '\n']) =
      ("sha256 ".data ++ (hexOfBytes h ++ ['\r'])) ++ '\n' ::
      (("size ".data ++ (ds ++ ['\r'])) ++ '\n' :: []) := by simp
  unfold blobShadowFromChars
  rw [e1, splitNl_append _ _ hA, splitNl_append _ _ hC, splitNl_no_nl [] (by simp)]
  have hsos1 : splitOnceSpace ("sha256 ".data ++ (hexOfBytes h ++ ['\r'])) =
      some ("sha256".data, hexOfBytes h ++ ['\r']) := by
    have : "sha256 ".data ++ (hexOfBytes h ++ ['\r']) =
        "sha256".data ++ ' ' :: (hexOfBytes h ++ ['\r']) := rfl
    rw [this]
    exact splitOnceSpace_append _ _ (by decide)
  have hsos2 : splitOnceSpace ("size ".data ++ (ds ++ ['\r'])) =
      some ("size".data, ds ++ ['\r']) := by
    have : "size ".data ++ (ds ++ ['\r']) = "size".data ++ ' ' :: (ds ++ ['\r']) := rfl
    rw [this]
    exact splitOnceSpace_append _ _ (by decide)
  have hlen65 : (hexOfBytes h ++ ['\r']).length = 65 := by
    rw [List.length_append, hexOfBytes_length, hlen]
    decide
  have hdec : hexDecode32 (hexOfBytes h ++ ['\r']) = none :=
    hexDecode32_length_ne _ (by omega)
  simp only [hsos1, hsos2, hdec]
  simp

/-- CR line endings are rejected by the `src/shadow.rs` parser: after the
64 hash characters the regex demands a bare newline, not CR. -/
theorem shadow_reject_cr (h : List Nat) (ds : List Char) (hlen : h.length = 32) :
    shadowFromChars ("sha256 ".data ++ hexOfBytes h ++ '\r' :: '\n' ::
      ("size ".data ++ ds ++ ['\r', '\n'])) = none := by
  have hlen64 : (hexOfBytes h).length = 64 := by rw [hexOfBytes_length, hlen]
  have e1 : "sha256 ".data ++ hexOfBytes h ++ '\r' :: '\n' ::
      ("size ".data ++ ds ++ ['\r', '\n']) =
      "sha256 ".data ++ (hexOfBytes h ++ '\r' :: '\n' ::
        ("size ".data ++ ds ++ ['\r', '\n'])) := by simp
  unfold shadowFromChars
  rw [e1, stripPfx_append]
  have htake : (hexOfBytes h ++ '\r' :: '\n' ::
      ("size ".data ++ ds ++ ['\r', '\n'])).take 64 = hexOfBytes h := by
    rw [← hlen64]
    exact List.take_left _ _
  have hdrop : (hexOfBytes h ++ '\r' :: '\n' ::
      ("size ".data ++ ds ++ ['\r', '\n'])).drop 64 = '\r' :: '\n' ::
      ("size ".data ++ ds ++ ['\r', '\n']) := by
    rw [← hlen64]
    exact List.drop_left _ _
  simp only [htake, hdrop]
  split
  · rfl
  · rfl

/-- An empty size value (`size \n`) is rejected by the `src/blob.rs`
parser: `u64` parsing of the empty string fails. -/
theorem blobShadow_reject_empty_size (h : List Nat)
    (hb : ∀ b ∈ h, b < 256) :
    blobShadowFromChars ("sha256 ".data ++ hexOfBytes h ++ '\n' ::
      ("size ".data ++ ['\n'])) = none := by
  have hhex := hexOfBytes_no_special h hb
  have hA : '\n' ∉ "sha256 ".data ++ hexOfBytes h := by
    intro hmem
    rcases List.mem_append.mp hmem with hx | hx
    · exact absurd hx (by decide)
    · exact hhex.1 hx
  have e1 : "sha256 ".data ++ hexOfBytes h ++ '\n' :: ("size ".data ++ ['\n']) =
      ("sha256 ".data ++ hexOfBytes h) ++ '\n' :: ("size ".data ++ '\n' :: []) := by simp
  unfold blobShadowFromChars
  rw [e1, splitNl_append _ _ hA, splitNl_append _ _ (by decide), splitNl_no_nl [] (by simp)]
  have hsos1 : splitOnceSpace ("sha256 ".data ++ hexOfBytes h) =
      some ("sha256".data, hexOfBytes h) := by
    have : "sha256 ".data ++ hexOfBytes h = "sha256".data ++ ' ' :: hexOfBytes h := rfl
    rw [this]
    exact splitOnceSpace_append _ _ (by decide)
  simp only [hsos1]
  simp [splitOnceSpace, rustParseU64, stripPlus, parseDigits]

/-- An empty size value is rejected by the `src/shadow.rs` parser: the
digit group must be non-empty. -/
theorem shadow_reject_empty_size (h : List Nat) (hlen : h.length = 32)
    (hb : ∀ b ∈ h, b < 256) :
    shadowFromChars ("sha256 ".data ++ hexOfBytes h ++ '\n' ::
      ("size ".data ++ ['\n'])) = none := by
  have hlen64 : (hexOfBytes h).length = 64 := by rw [hexOfBytes_length, hlen]
  have hall : (hexOfBytes h).all isHashChar = true :=
    List.all_eq_true.mpr (fun c hc => hexOfBytes_hashChars h hb c hc)
  have e1 : "sha256 ".data ++ hexOfBytes h ++ '\n' :: ("size ".data ++ ['\n']) =
      "sha256 ".data ++ (hexOfBytes h ++ '\n' :: ("size ".data ++ ['\n'])) := by simp
  unfold shadowFromChars
  rw [e1, stripPfx_append]
  have htake : (hexOfBytes h ++ '\n' :: ("size ".data ++ ['\n'])).take 64 =
      hexOfBytes h := by
    rw [← hlen64]
    exact List.take_left _ _
  have hdrop : (hexOfBytes h ++ '\n' :: ("size ".data ++ ['\n'])).drop 64 =
      '\n' :: ("size ".data ++ ['\n']) := by
    rw [← hlen64]
    exact List.drop_left _ _
  simp only [htake, hdrop, hlen64, hall]
  rw [stripPfx_append]
  simp

/-- A missing size line is rejected by the `src/blob.rs` parser: the split
yields only two pieces. -/
theorem blobShadow_reject_no_size_line (h : List Nat) (hb : ∀ b ∈ h, b < 256) :
    blobShadowFromChars ("sha256 ".data ++ hexOfBytes h ++ ['\n']) = none := by
  have hhex := hexOfBytes_no_special h hb
  have hA : '\n' ∉ "sha256 ".data ++ hexOfBytes h := by
    intro hmem
    rcases List.mem_append.mp hmem with hx | hx
    · exact absurd hx (by decide)
    · exact hhex.1 hx
  have e1 : "sha256 ".data ++ hexOfBytes h ++ ['\n'] =
      ("sha256 ".data ++ hexOfBytes h) ++ '\n' :: [] := by simp
  unfold blobShadowFromChars
  rw [e1, splitNl_append _ _ hA, splitNl_no_nl [] (by simp)]

/-! Object-store lemmas. -/

/-- The extension order is reflexive. -/
theorem RepoLe.refl (r : Repo) : RepoLe r r := fun _ _ h => h

/-- The extension order is transitive. -/
theorem RepoLe.trans {r1 r2 r3 : Repo} (h12 : RepoLe r1 r2) (h23 : RepoLe r2 r3) :
    RepoLe r1 r3 := fun i ob h => h23 i ob (h12 i ob h)

/-- Writing an object only extends the store. -/
theorem writeObj_le (r : Repo) (ob : GitObj) : RepoLe r (writeObj r ob).1 := by
  unfold writeObj
  match hidx : r.objs.findIdx? (· = ob) with
  | some i => exact RepoLe.refl r
  | none =>
    intro j x hj
    have hlt : j < r.objs.length := by
      by_contra hge
      rw [List.getElem?_eq_none (by omega)] at hj
      cases hj
    simpa [List.getElem?_append_left hlt] using hj

/-- The returned id of a write points at the written object. -/
theorem writeObj_get (r : Repo) (ob : GitObj) :
    ((writeObj r ob).1).objs[(writeObj r ob).2]? = some ob := by
  unfold writeObj
  match hidx : r.objs.findIdx? (· = ob) with
  | some i =>
    obtain ⟨hlt, hfi⟩ := List.findIdx?_eq_some_iff_findIdx_eq.mp hidx
    have hw : r.objs.findIdx (fun x => decide (x = ob)) < r.objs.length := by
      rw [hfi]; exact hlt
    have hp := @List.findIdx_getElem _ (fun x => decide (x = ob)) r.objs hw
    have hob : r.objs[i] = ob := by
      simp only [hfi] at hp
      simpa using hp
    simp [List.getElem?_eq_getElem hlt, hob]
  | none =>
    simp

/-- Tree lookup is stable under store extension. -/
theorem findTree_mono {r r' : Repo} (h : RepoLe r r') {o : Nat} {es : List TreeEnt}
    (hf : findTree r o = some es) : findTree r' o = some es := by
  unfold findTree at hf ⊢
  match hob : r.objs[o]? with
  | some (.treeObj es') =>
    rw [hob] at hf
    rw [h o _ hob]
    exact hf
  | some (.blobObj c) => rw [hob] at hf; cases hf
  | none => rw [hob] at hf; cases hf

/-- Blob lookup is stable under store extension. -/
theorem findBlob_mono {r r' : Repo} (h : RepoLe r r') {o : Nat} {c : List Char}
    (hf : findBlob r o = some c) : findBlob r' o = some c := by
  unfold findBlob at hf ⊢
  match hob : r.objs[o]? with
  | some (.blobObj c') =>
    rw [hob] at hf
    rw [h o _ hob]
    exact hf
  | some (.treeObj es) => rw [hob] at hf; cases hf
  | none => rw [hob] at hf; cases hf

/-- Successful path resolution is stable under store extension. -/
theorem resolvePath_mono {r r' : Repo} (h : RepoLe r r') :
    ∀ (q : List String) (o : Nat) (x : GitFileMode × Nat),
      resolvePath r o q = some x → resolvePath r' o q = some x := by
  intro q
  induction q with
  | nil => intro o x hx; cases hx
  | cons c rest ih =>
    intro o x hx
    unfold resolvePath at hx ⊢
    match hft : findTree r o with
    | none => simp only [hft] at hx; cases hx
    | some es =>
      simp only [hft] at hx
      simp only [findTree_mono h hft]
      match hget : tbGet (encodeChildName c) es with
      | none => simp only [hget] at hx; cases hx
      | some ent =>
        simp only [hget] at hx ⊢
        match rest with
        | [] => exact hx
        | _ :: _ =>
          by_cases hmode : ent.mode = .tree
          · rw [if_pos hmode] at hx ⊢
            exact ih ent.oid x hx
          · rw [if_neg hmode] at hx
            cases hx

/-! Tree-builder lemmas. -/

/-- Lookup after sorted insertion, different name. -/
theorem tbGet_insertSorted_ne (e : TreeEnt) (es : List TreeEnt) (n : String)
    (h : e.name ≠ n) : tbGet n (tbInsertSorted e es) = tbGet n es := by
  induction es with
  | nil => simp [tbInsertSorted, tbGet, List.find?, h]
  | cons x xs ih =>
    unfold tbInsertSorted
    by_cases hk : keyLt (gitKey e) (gitKey x)
    · simp only [if_pos hk]
      unfold tbGet at ih ⊢
      simp [List.find?, h]
    · simp only [if_neg hk]
      unfold tbGet at ih ⊢
      by_cases hx : x.name = n
      · simp [List.find?, hx]
      · simp only [List.find?]
        rw [show (decide (x.name = n)) = false by simp [hx]]
        exact ih

/-- Lookup after sorted insertion of an absent name finds the new entry. -/
theorem tbGet_insertSorted_self (e : TreeEnt) (es : List TreeEnt)
    (h : tbGet e.name es = none) : tbGet e.name (tbInsertSorted e es) = some e := by
  induction es with
  | nil => simp [tbInsertSorted, tbGet, List.find?]
  | cons x xs ih =>
    unfold tbGet at h
    simp only [List.find?] at h
    match hx : decide (x.name = e.name) with
    | true => rw [hx] at h; cases h
    | false =>
      rw [hx] at h
      unfold tbInsertSorted
      by_cases hk : keyLt (gitKey e) (gitKey x)
      · simp [if_pos hk, tbGet, List.find?]
      · simp only [if_neg hk]
        unfold tbGet
        simp only [List.find?, hx]
        exact ih h

/-- Removal empties the lookup for the removed name. -/
theorem tbGet_remove_self (n : String) (es : List TreeEnt) :
    tbGet n (tbRemove n es) = none := by
  induction es with
  | nil => rfl
  | cons x xs ih =>
    unfold tbRemove at ih ⊢
    unfold tbGet at ih ⊢
    by_cases hx : x.name = n
    · simp [List.filter, hx, ih]
    · simp only [List.filter]
      rw [show (decide ¬ x.name = n) = true by simp [hx]]
      simp only [List.find?]
      rw [show (decide (x.name = n)) = false by simp [hx]]
      exact ih

/-- Removal of one name leaves other lookups unchanged. -/
theorem tbGet_remove_ne (n n' : String) (es : List TreeEnt) (h : n ≠ n') :
    tbGet n' (tbRemove n es) = tbGet n' es := by
  induction es with
  | nil => rfl
  | cons x xs ih =>
    unfold tbRemove at ih ⊢
    unfold tbGet at ih ⊢
    by_cases hx : x.name = n
    · simp only [List.filter]
      rw [show (decide ¬ x.name = n) = false by simp [hx]]
      simp only [List.find?]
      rw [show (decide (x.name = n')) = false by simp [hx, h]]
      exact ih
    · simp only [List.filter]
      rw [show (decide ¬ x.name = n) = true by simp [hx]]
      simp only [List.find?]
      cases hx' : decide (x.name = n') with
      | true => rfl
      | false => exact ih

/-- The encoded child name determines the component. -/
theorem encodeChildName_inj (a b : String) (h : encodeChildName a = encodeChildName b) :
    a = b := by
  unfold encodeChildName at h
  have : ("0_" ++ a).data = ("0_" ++ b).data := by rw [h]
  simp only [String.data_append] at this
  have hdata := List.append_cancel_left this
  cases a; cases b
  simp only at hdata
  rw [hdata]

/-! Append lemmas: store extension. -/

/-- A successful `append_inner_create` only extends the store. -/
theorem appendInnerCreate_le (path : List String) :
    ∀ (r : Repo) (eb : Nat) (mode : GitFileMode) (obj : Nat) (res : Repo × Nat),
      appendInnerCreate r eb path mode obj = .ok res → RepoLe r res.1 := by
  induction path with
  | nil =>
    intro r eb mode obj res h
    unfold appendInnerCreate at h
    cases h
  | cons head tail ih =>
    intro r eb mode obj res h
    unfold appendInnerCreate at h
    match tail, ih with
    | [], _ =>
      simp only [] at h
      have hres := Except.ok.inj h
      rw [← hres]
      exact RepoLe.trans (writeObj_le r _) (writeObj_le _ _)
    | t1 :: ts, ih =>
      simp only [] at h
      match hrec : appendInnerCreate (writeObj r (.blobObj [])).1 eb (t1 :: ts) mode obj with
      | .error e => rw [hrec] at h; cases h
      | .ok (rmid, childOid) =>
        rw [hrec] at h
        have hres := Except.ok.inj h
        rw [← hres]
        exact RepoLe.trans (writeObj_le r _)
          (RepoLe.trans (ih _ eb mode obj (rmid, childOid) hrec) (writeObj_le rmid _))

/-- A successful `append_inner` only extends the store. -/
theorem appendInner_le (path : List String) :
    ∀ (r : Repo) (eb bigTree : Nat) (mode : GitFileMode) (obj : Nat) (cr : Bool)
      (res : Repo × Nat),
      appendInner r eb bigTree path mode obj cr = .ok res → RepoLe r res.1 := by
  induction path with
  | nil =>
    intro r eb bigTree mode obj cr res h
    unfold appendInner at h
    match hft : findTree r bigTree with
    | none => rw [hft] at h; cases h
    | some orig => simp only [hft] at h; cases h
  | cons head tail ih =>
    intro r eb bigTree mode obj cr res h
    unfold appendInner at h
    match hft : findTree r bigTree with
    | none => rw [hft] at h; cases h
    | some orig =>
      simp only [hft] at h
      match tail, ih with
      | [], _ =>
        simp only [] at h
        by_cases hcr : (!cr && (tbGet (encodeChildName head) orig).isSome) = true
        · rw [if_pos hcr] at h; cases h
        · rw [if_neg hcr] at h
          have hres := Except.ok.inj h
          rw [← hres]
          exact writeObj_le r _
      | t1 :: ts, ih =>
        simp only [] at h
        match hget : tbGet (encodeChildName head) orig with
        | none =>
          simp only [hget] at h
          match hrec : appendInnerCreate r eb (t1 :: ts) mode obj with
          | .error e => rw [hrec] at h; cases h
          | .ok (rmid, childOid) =>
            rw [hrec] at h
            have hres := Except.ok.inj h
            rw [← hres]
            exact RepoLe.trans (appendInnerCreate_le _ _ _ _ _ _ hrec) (writeObj_le rmid _)
        | some ent =>
          simp only [hget] at h
          by_cases hmode : ent.mode ≠ .tree
          · rw [if_pos hmode] at h; cases h
          · rw [if_neg hmode] at h
            match hrec : appendInner r eb ent.oid (t1 :: ts) mode obj cr with
            | .error e => rw [hrec] at h; cases h
            | .ok (rmid, childOid) =>
              rw [hrec] at h
              have hres := Except.ok.inj h
              rw [← hres]
              exact RepoLe.trans (ih _ _ _ _ _ _ _ hrec) (writeObj_le rmid _)

/-- A freshly written tree is found at the returned id. -/
theorem findTree_writeObj_tree (r : Repo) (es : List TreeEnt) :
    findTree (writeObj r (.treeObj es)).1 (writeObj r (.treeObj es)).2 = some es := by
  unfold findTree
  rw [writeObj_get]

/-- A freshly written blob is found at the returned id. -/
theorem findBlob_writeObj_blob (r : Repo) (c : List Char) :
    findBlob (writeObj r (.blobObj c)).1 (writeObj r (.blobObj c)).2 = some c := by
  unfold findBlob
  rw [writeObj_get]

/-- The marker name is never an encoded child name. -/
theorem marker_ne_encodeChild (c : String) : ("0" : String) ≠ encodeChildName c := by
  intro heq
  have hd := congrArg String.data heq
  simp only [encodeChildName, String.data_append] at hd
  cases hd

/-- A child lookup misses in a fresh marker-only builder. -/
theorem tbGet_marker_only (ebo : Nat) (c : String) :
    tbGet (encodeChildName c) (tbInsert "0" .blob ebo []) = none := by
  unfold tbInsert tbInsertSorted tbGet
  simp only [List.find?]
  rw [show (decide ((⟨"0", .blob, ebo⟩ : TreeEnt).name = encodeChildName c)) = false by
    simp [marker_ne_encodeChild c]]

/-- A successful `append_inner_create` resolves the created path to the
inserted object. -/
theorem appendInnerCreate_resolves (path : List String) :
    ∀ (r : Repo) (eb : Nat) (mode : GitFileMode) (obj : Nat) (res : Repo × Nat),
      appendInnerCreate r eb path mode obj = .ok res →
      resolvePath res.1 res.2 path = some (mode, obj) := by
  induction path with
  | nil =>
    intro r eb mode obj res h
    unfold appendInnerCreate at h
    cases h
  | cons head tail ih =>
    intro r eb mode obj res h
    unfold appendInnerCreate at h
    match tail, ih with
    | [], _ =>
      simp only [] at h
      have hres := Except.ok.inj h
      rw [← hres]
      unfold resolvePath
      simp only [findTree_writeObj_tree]
      have hself := tbGet_insertSorted_self ⟨encodeChildName head, mode, obj⟩
        (tbInsert "0" .blob (writeObj r (.blobObj [])).2 [])
        (tbGet_marker_only _ head)
      rw [show tbInsert (encodeChildName head) mode obj
          (tbInsert "0" .blob (writeObj r (.blobObj [])).2 []) =
        tbInsertSorted ⟨encodeChildName head, mode, obj⟩
          (tbInsert "0" .blob (writeObj r (.blobObj [])).2 []) from rfl]
      rw [show (⟨encodeChildName head, mode, obj⟩ : TreeEnt).name =
        encodeChildName head from rfl] at hself
      rw [hself]
    | t1 :: ts, ih =>
      simp only [] at h
      match hrec : appendInnerCreate (writeObj r (.blobObj [])).1 eb (t1 :: ts) mode obj with
      | .error e => rw [hrec] at h; cases h
      | .ok (rmid, childOid) =>
        rw [hrec] at h
        have hres := Except.ok.inj h
        rw [← hres]
        unfold resolvePath
        simp only [findTree_writeObj_tree]
        have hself := tbGet_insertSorted_self ⟨encodeChildName head, .tree, childOid⟩
          (tbInsert "0" .blob (writeObj r (.blobObj [])).2 [])
          (tbGet_marker_only _ head)
        rw [show tbInsert (encodeChildName head) .tree childOid
            (tbInsert "0" .blob (writeObj r (.blobObj [])).2 []) =
          tbInsertSorted ⟨encodeChildName head, .tree, childOid⟩
            (tbInsert "0" .blob (writeObj r (.blobObj [])).2 []) from rfl]
        rw [show (⟨encodeChildName head, .tree, childOid⟩ : TreeEnt).name =
          encodeChildName head from rfl] at hself
        rw [hself]
        simp only [if_pos rfl]
        have hmid := ih _ eb mode obj (rmid, childOid) hrec
        exact resolvePath_mono (writeObj_le rmid _) _ _ _ hmid

/-- Shape of a successful `append_inner` result: the returned id names a
tree written over some extension of the store, equal to the original tree
with the head entry replaced. -/
theorem appendInner_shape (r : Repo) (eb bigTree : Nat) (head : String)
    (tail : List String) (mode : GitFileMode) (obj : Nat) (cr : Bool)
    (res : Repo × Nat) (orig : List TreeEnt)
    (hft : findTree r bigTree = some orig)
    (hok : appendInner r eb bigTree (head :: tail) mode obj cr = .ok res) :
    ∃ (rX : Repo) (hm : GitFileMode) (ho : Nat), RepoLe r rX ∧
      res = writeObj rX (.treeObj (tbInsert (encodeChildName head) hm ho
        (if (tbGet (encodeChildName head) orig).isSome
         then tbRemove (encodeChildName head) orig else orig))) := by
  unfold appendInner at hok
  simp only [hft] at hok
  match tail with
  | [] =>
    simp only [] at hok
    by_cases hcr : (!cr && (tbGet (encodeChildName head) orig).isSome) = true
    · rw [if_pos hcr] at hok; cases hok
    · rw [if_neg hcr] at hok
      exact ⟨r, mode, obj, RepoLe.refl r, (Except.ok.inj hok).symm⟩
  | t1 :: ts =>
    simp only [] at hok
    match hget : tbGet (encodeChildName head) orig with
    | none =>
      simp only [hget] at hok
      match hrec : appendInnerCreate r eb (t1 :: ts) mode obj with
      | .error e => rw [hrec] at hok; cases hok
      | .ok (rmid, childOid) =>
        rw [hrec] at hok
        exact ⟨rmid, .tree, childOid, appendInnerCreate_le _ _ _ _ _ _ hrec,
          (Except.ok.inj hok).symm⟩
    | some ent =>
      simp only [hget] at hok
      by_cases hmode : ent.mode ≠ .tree
      · rw [if_pos hmode] at hok; cases hok
      · rw [if_neg hmode] at hok
        match hrec : appendInner r eb ent.oid (t1 :: ts) mode obj cr with
        | .error e => rw [hrec] at hok; cases hok
        | .ok (rmid, childOid) =>
          rw [hrec] at hok
          exact ⟨rmid, .tree, childOid, appendInner_le _ _ _ _ _ _ _ _ hrec,
            (Except.ok.inj hok).symm⟩

/-- Lookup of the head entry in the rebuilt tree finds the new value. -/
theorem tbGet_rebuilt_self (orig : List TreeEnt) (head : String)
    (hm : GitFileMode) (ho : Nat) :
    tbGet (encodeChildName head) (tbInsert (encodeChildName head) hm ho
      (if (tbGet (encodeChildName head) orig).isSome
       then tbRemove (encodeChildName head) orig else orig)) =
      some ⟨encodeChildName head, hm, ho⟩ := by
  have habsent : tbGet (encodeChildName head)
      (if (tbGet (encodeChildName head) orig).isSome
       then tbRemove (encodeChildName head) orig else orig) = none := by
    by_cases hg : (tbGet (encodeChildName head) orig).isSome = true
    · rw [if_pos hg]
      exact tbGet_remove_self _ _
    · rw [if_neg hg]
      exact Option.not_isSome_iff_eq_none.mp (by simpa using hg)
  have hself := tbGet_insertSorted_self ⟨encodeChildName head, hm, ho⟩ _ habsent
  exact hself

/-- Lookup of a different entry in the rebuilt tree is unchanged. -/
theorem tbGet_rebuilt_ne (orig : List TreeEnt) (head other : String)
    (hm : GitFileMode) (ho : Nat) (hne : other ≠ head) :
    tbGet (encodeChildName other) (tbInsert (encodeChildName head) hm ho
      (if (tbGet (encodeChildName head) orig).isSome
       then tbRemove (encodeChildName head) orig else orig)) =
      tbGet (encodeChildName other) orig := by
  have hname : encodeChildName head ≠ encodeChildName other := by
    intro heq
    exact hne (encodeChildName_inj _ _ heq).symm
  have h1 := tbGet_insertSorted_ne ⟨encodeChildName head, hm, ho⟩
    (if (tbGet (encodeChildName head) orig).isSome
     then tbRemove (encodeChildName head) orig else orig)
    (encodeChildName other) hname
  rw [show tbInsert (encodeChildName head) hm ho
      (if (tbGet (encodeChildName head) orig).isSome
       then tbRemove (encodeChildName head) orig else orig) =
    tbInsertSorted ⟨encodeChildName head, hm, ho⟩
      (if (tbGet (encodeChildName head) orig).isSome
       then tbRemove (encodeChildName head) orig else orig) from rfl]
  rw [h1]
  by_cases hg : (tbGet (encodeChildName head) orig).isSome = true
  · rw [if_pos hg]
    exact tbGet_remove_ne _ _ _ (fun hc => hname hc)
  · rw [if_neg hg]

/-- Lookup of a freshly inserted entry over an absent name. -/
theorem tbGet_insert_self (head : String) (hm : GitFileMode) (ho : Nat)
    (es1 : List TreeEnt) (habsent : tbGet (encodeChildName head) es1 = none) :
    tbGet (encodeChildName head) (tbInsert (encodeChildName head) hm ho es1) =
      some ⟨encodeChildName head, hm, ho⟩ := by
  have hself := tbGet_insertSorted_self ⟨encodeChildName head, hm, ho⟩ es1 habsent
  exact hself

/-- Lookup of a different name after an insertion. -/
theorem tbGet_insert_ne (head other : String) (hm : GitFileMode) (ho : Nat)
    (es1 : List TreeEnt) (hne : other ≠ head) :
    tbGet (encodeChildName other) (tbInsert (encodeChildName head) hm ho es1) =
      tbGet (encodeChildName other) es1 := by
  have hname : (⟨encodeChildName head, hm, ho⟩ : TreeEnt).name ≠ encodeChildName other := by
    intro heq
    exact hne (encodeChildName_inj _ _ heq).symm
  exact tbGet_insertSorted_ne _ es1 _ hname

/-- A successful `append_inner` resolves the appended path to the new
object. -/
theorem appendInner_resolves (path : List String) :
    ∀ (r : Repo) (eb bigTree : Nat) (mode : GitFileMode) (obj : Nat) (cr : Bool)
      (res : Repo × Nat),
      appendInner r eb bigTree path mode obj cr = .ok res →
      resolvePath res.1 res.2 path = some (mode, obj) := by
  induction path with
  | nil =>
    intro r eb bigTree mode obj cr res hok
    unfold appendInner at hok
    match hft : findTree r bigTree with
    | none => rw [hft] at hok; cases hok
    | some orig => simp only [hft] at hok; cases hok
  | cons head tail ih =>
    intro r eb bigTree mode obj cr res hok
    unfold appendInner at hok
    match hft : findTree r bigTree with
    | none => rw [hft] at hok; cases hok
    | some orig =>
      simp only [hft] at hok
      match tail, ih with
      | [], _ =>
        simp only [] at hok
        by_cases hcr : (!cr && (tbGet (encodeChildName head) orig).isSome) = true
        · rw [if_pos hcr] at hok; cases hok
        · rw [if_neg hcr] at hok
          rw [← (Except.ok.inj hok)]
          unfold resolvePath
          simp only [findTree_writeObj_tree]
          rw [tbGet_rebuilt_self]
      | t1 :: ts, ih =>
        simp only [] at hok
        match hget : tbGet (encodeChildName head) orig with
        | none =>
          simp only [hget] at hok
          match hrec : appendInnerCreate r eb (t1 :: ts) mode obj with
          | .error e => rw [hrec] at hok; cases hok
          | .ok (rmid, childOid) =>
            rw [hrec] at hok
            rw [← (Except.ok.inj hok)]
            unfold resolvePath
            simp only [findTree_writeObj_tree]
            rw [show (if (none : Option TreeEnt).isSome = true
                then tbRemove (encodeChildName head) orig else orig) = orig from rfl]
            rw [tbGet_insert_self head .tree childOid orig hget]
            simp only [if_pos rfl]
            exact resolvePath_mono (writeObj_le rmid _) _ _ _
              (appendInnerCreate_resolves _ _ _ _ _ _ hrec)
        | some ent =>
          simp only [hget] at hok
          by_cases hmode : ent.mode ≠ .tree
          · rw [if_pos hmode] at hok; cases hok
          · rw [if_neg hmode] at hok
            match hrec : appendInner r eb ent.oid (t1 :: ts) mode obj cr with
            | .error e => rw [hrec] at hok; cases hok
            | .ok (rmid, childOid) =>
              rw [hrec] at hok
              rw [← (Except.ok.inj hok)]
              unfold resolvePath
              simp only [findTree_writeObj_tree]
              rw [show (if (some ent).isSome = true
                  then tbRemove (encodeChildName head) orig else orig) =
                tbRemove (encodeChildName head) orig from rfl]
              rw [tbGet_insert_self head .tree childOid _ (tbGet_remove_self _ orig)]
              simp only [if_pos rfl]
              exact resolvePath_mono (writeObj_le rmid _) _ _ _
                (ih _ _ _ _ _ _ _ hrec)

/-- One unfolding step of path resolution at a known tree and entry. -/
theorem resolvePath_step (r' : Repo) (o' : Nat) (es : List TreeEnt) (q1 : String)
    (qt : List String) (entq : TreeEnt) (x : GitFileMode × Nat)
    (hft' : findTree r' o' = some es)
    (hget' : tbGet (encodeChildName q1) es = some entq)
    (hx : (match qt with
           | [] => some (entq.mode, entq.oid)
           | _ :: _ =>
             if entq.mode = GitFileMode.tree then resolvePath r' entq.oid qt
             else none) = some x) :
    resolvePath r' o' (q1 :: qt) = some x := by
  unfold resolvePath
  simp only [hft', hget']
  exact hx

/-- Frame property of a successful `append_inner`: any path that resolved
before, is distinct from the appended path, and is neither an ancestor nor
a descendant of it, still resolves to the same `(mode, id)` pair. -/
theorem appendInner_frame (path : List String) :
    ∀ (r : Repo) (eb bigTree : Nat) (mode : GitFileMode) (obj : Nat) (cr : Bool)
      (res : Repo × Nat) (q : List String) (x : GitFileMode × Nat),
      appendInner r eb bigTree path mode obj cr = .ok res →
      resolvePath r bigTree q = some x →
      ¬ q <+: path → ¬ path <+: q →
      resolvePath res.1 res.2 q = some x := by
  induction path with
  | nil =>
    intro r eb bigTree mode obj cr res q x hok hq hqp hpq
    unfold appendInner at hok
    match hft : findTree r bigTree with
    | none => rw [hft] at hok; cases hok
    | some orig => simp only [hft] at hok; cases hok
  | cons head tail ih =>
    intro r eb bigTree mode obj cr res q x hok hq hqp hpq
    match q, hq, hqp, hpq with
    | [], hq, _, _ => unfold resolvePath at hq; cases hq
    | q1 :: qt, hq, hqp, hpq =>
      match hft : findTree r bigTree with
      | none =>
        unfold resolvePath at hq
        simp only [hft] at hq
        cases hq
      | some orig =>
        unfold resolvePath at hq
        simp only [hft] at hq
        match hgetq : tbGet (encodeChildName q1) orig with
        | none => simp only [hgetq] at hq; cases hq
        | some entq =>
          simp only [hgetq] at hq
          by_cases hq1 : q1 = head
          · subst hq1
            match tail, ih, hqp, hpq with
            | [], _, hqp, hpq =>
              exact absurd ⟨qt, rfl⟩ hpq
            | t1 :: ts, ih, hqp, hpq =>
              match qt, hq, hqp, hpq with
              | [], hq, hqp, hpq =>
                exact absurd ⟨t1 :: ts, rfl⟩ hqp
              | qt1 :: qts, hq, hqp, hpq =>
                by_cases hmode : entq.mode = .tree
                · rw [if_pos hmode] at hq
                  unfold appendInner at hok
                  simp only [hft] at hok
                  simp only [hgetq] at hok
                  rw [if_neg (fun hc => hc hmode)] at hok
                  match hrec : appendInner r eb entq.oid (t1 :: ts) mode obj cr with
                  | .error e => rw [hrec] at hok; cases hok
                  | .ok (rmid, childOid) =>
                    rw [hrec] at hok
                    have hqt1 : ¬ (qt1 :: qts <+: t1 :: ts) := fun hpre =>
                      hqp (List.cons_prefix_cons.mpr ⟨rfl, hpre⟩)
                    have hqt2 : ¬ (t1 :: ts <+: qt1 :: qts) := fun hpre =>
                      hpq (List.cons_prefix_cons.mpr ⟨rfl, hpre⟩)
                    have hIH := ih r eb entq.oid mode obj cr (rmid, childOid)
                      (qt1 :: qts) x hrec hq hqt1 hqt2
                    rw [← (Except.ok.inj hok)]
                    unfold resolvePath
                    simp only [findTree_writeObj_tree]
                    rw [show (if (some entq).isSome = true
                        then tbRemove (encodeChildName q1) orig else orig) =
                      tbRemove (encodeChildName q1) orig from rfl]
                    rw [tbGet_insert_self q1 .tree childOid _ (tbGet_remove_self _ orig)]
                    simp only [if_pos rfl]
                    exact resolvePath_mono (writeObj_le rmid _) _ _ _ hIH
                · rw [if_neg hmode] at hq
                  cases hq
          · obtain ⟨rX, hm, ho, hle, hres⟩ :=
              appendInner_shape r eb bigTree head tail mode obj cr res orig hft hok
            rw [hres]
            refine resolvePath_step _ _ _ q1 qt entq x (findTree_writeObj_tree _ _)
              ?_ ?_
            · rw [tbGet_rebuilt_ne orig head q1 hm ho hq1]
              exact hgetq
            · match qt, hq with
              | [], hq => exact hq
              | qt1 :: qts, hq =>
                by_cases hmode : entq.mode = .tree
                · rw [if_pos hmode] at hq ⊢
                  exact resolvePath_mono (RepoLe.trans hle (writeObj_le rX _)) _ _ _ hq
                · rw [if_neg hmode] at hq
                  cases hq

/-- C3 (amended): after a successful `append(T, p, m, o, true)`
(src/database/append.rs), the encoded path `p` resolves to exactly
`(m, o)` in the returned tree, and every other path `q` that resolved in
`T` and is *neither a strict prefix of `p` nor a strict extension of `p`*
resolves to the same `(mode, id)` as before.  The claim as stated also
covers strict extensions of `p`; the counterexample refutes that part, so
the frame here excludes both directions of the prefix order. -/
theorem C3_append_resolves_and_frame (r : Repo) (bigTree : Nat) (path : List String)
    (mode : GitFileMode) (obj : Nat) (res : Repo × Nat)
    (hok : appendDb r bigTree path mode obj true = .ok res) :
    resolvePath res.1 res.2 path = some (mode, obj)
    ∧ ∀ (q : List String) (x : GitFileMode × Nat),
        resolvePath r bigTree q = some x →
        ¬ q <+: path → ¬ path <+: q →
        resolvePath res.1 res.2 q = some x := by
  unfold appendDb at hok
  constructor
  · exact appendInner_resolves path _ _ _ _ _ _ _ hok
  · intro q x hq hqp hpq
    have hq' := resolvePath_mono (writeObj_le r (.blobObj [])) q bigTree x hq
    exact appendInner_frame path _ _ _ _ _ _ _ q x hok hq' hqp hpq

/-- C3 counterexample: in a tree holding `a/b`, appending a blob at `a`
with `can_replace = true` succeeds, yet the path `a/b` — which resolved
before, differs from `a`, and is not a strict prefix of `a` — no longer
resolves afterwards.  The claim's frame clause asserts it still would. -/
theorem C3_counterexample_extension_clobbered :
    resolvePath ⟨[.blobObj ['x'], .treeObj [⟨"0_b", .blob, 0⟩],
        .treeObj [⟨"0_a", .tree, 1⟩]]⟩ 2 ["a", "b"] = some (.blob, 0)
    ∧ appendDb ⟨[.blobObj ['x'], .treeObj [⟨"0_b", .blob, 0⟩],
        .treeObj [⟨"0_a", .tree, 1⟩]]⟩ 2 ["a"] .blob 0 true =
      .ok (⟨[.blobObj ['x'], .treeObj [⟨"0_b", .blob, 0⟩],
        .treeObj [⟨"0_a", .tree, 1⟩], .blobObj [], .treeObj [⟨"0_a", .blob, 0⟩]]⟩, 4)
    ∧ (["a", "b"] : List String) ≠ ["a"]
    ∧ ¬ ((["a", "b"] : List String) <+: ["a"])
    ∧ resolvePath ⟨[.blobObj ['x'], .treeObj [⟨"0_b", .blob, 0⟩],
        .treeObj [⟨"0_a", .tree, 1⟩], .blobObj [], .treeObj [⟨"0_a", .blob, 0⟩]]⟩ 4
        ["a", "b"] = none := by
  refine ⟨by rfl, by rfl, by simp, ?_, by rfl⟩
  rintro ⟨t, ht⟩
  simp at ht

/-- C3 witness: the amended theorem applied to the counterexample's repo,
checking that the appended path itself resolves to the new object. -/
theorem C3_append_resolves_and_frame_witness :
    resolvePath ⟨[.blobObj ['x'], .treeObj [⟨"0_b", .blob, 0⟩],
        .treeObj [⟨"0_a", .tree, 1⟩], .blobObj [], .treeObj [⟨"0_a", .blob, 0⟩]]⟩ 4
      ["a"] = some (.blob, 0) :=
  (C3_append_resolves_and_frame ⟨[.blobObj ['x'], .treeObj [⟨"0_b", .blob, 0⟩],
      .treeObj [⟨"0_a", .tree, 1⟩]]⟩ 2 ["a"] .blob 0
    (⟨[.blobObj ['x'], .treeObj [⟨"0_b", .blob, 0⟩],
        .treeObj [⟨"0_a", .tree, 1⟩], .blobObj [], .treeObj [⟨"0_a", .blob, 0⟩]]⟩, 4)
    (by rfl)).1

/-- C4 (amended): when `append_inner` descends through an intermediate
path component whose existing entry is not a tree, it hits the source's
`assert_eq!` and aborts (a panic), regardless of `can_replace`; it never
replaces the intermediate entry. -/
theorem C4_append_intermediate_asserts (r : Repo) (eb bigTree : Nat) (head : String)
    (tail : List String) (mode : GitFileMode) (obj : Nat) (canReplace : Bool)
    (orig : List TreeEnt) (ent : TreeEnt)
    (hft : findTree r bigTree = some orig)
    (htail : tail ≠ [])
    (hget : tbGet (encodeChildName head) orig = some ent)
    (hmode : ent.mode ≠ .tree) :
    appendInner r eb bigTree (head :: tail) mode obj canReplace = .error .panicked := by
  unfold appendInner
  simp only [hft]
  match tail, htail with
  | t1 :: ts, _ =>
    simp only [hget]
    rw [if_pos hmode]

/-- C4 counterexample: appending at `a/b` over a tree whose entry `a` is a
blob aborts with a panic even with `can_replace = false`; the claim says
this call replaces the entry and returns successfully. -/
theorem C4_counterexample_panics_not_replaces :
    appendDb ⟨[.blobObj [], .treeObj [⟨"0", .blob, 0⟩, ⟨"0_a", .blob, 0⟩]]⟩ 1
      ["a", "b"] .blob 0 false = .error .panicked := by rfl

/-- C4 witness: the amended theorem applied at the counterexample input. -/
theorem C4_append_intermediate_asserts_witness :
    appendInner ⟨[.blobObj [], .treeObj [⟨"0", .blob, 0⟩, ⟨"0_a", .blob, 0⟩]]⟩ 0 1
      ["a", "b"] .blob 0 false = .error .panicked :=
  C4_append_intermediate_asserts ⟨[.blobObj [], .treeObj [⟨"0", .blob, 0⟩, ⟨"0_a", .blob, 0⟩]]⟩
    0 1 "a" ["b"] .blob 0 false [⟨"0", .blob, 0⟩, ⟨"0_a", .blob, 0⟩] ⟨"0_a", .blob, 0⟩
    (by rfl) (by simp) (by rfl) (by decide)

/-- C2 (amended): both shadow parsers invert their printers, and the
strictness obligations hold with one exception — `Shadow::from_str`
(src/shadow.rs) accepts the form without a size line (see the
counterexample), while `BlobShadow::from_str` (src/blob.rs) rejects it.
All other rejection families of the claim hold for both parsers: no final
newline, CR line endings, and an empty size value. -/
theorem C2_shadow_parsing_roundtrip_strict
    (h : List Nat) (hlen : h.length = 32) (hb : ∀ b ∈ h, b < 256)
    (sz : Nat) (hsz : sz < 2 ^ 64)
    (osz : Option Nat) (hosz : ∀ n, osz = some n → n < 2 ^ 64)
    (cs : List Char) (hcs : endsNl cs = false)
    (ds : List Char) (hds : ∀ c ∈ ds, isDigitCh c = true) :
    blobShadowFromChars (blobShadowToChars ⟨h, sz⟩) = some ⟨h, sz⟩
    ∧ shadowFromChars (shadowToChars ⟨h, osz⟩) = some ⟨h, osz⟩
    ∧ blobShadowFromChars cs = none
    ∧ shadowFromChars cs = none
    ∧ blobShadowFromChars ("sha256 ".data ++ hexOfBytes h ++ '\r' :: '\n' ::
        ("size ".data ++ ds ++ ['\r', '\n'])) = none
    ∧ shadowFromChars ("sha256 ".data ++ hexOfBytes h ++ '\r' :: '\n' ::
        ("size ".data ++ ds ++ ['\r', '\n'])) = none
    ∧ blobShadowFromChars ("sha256 ".data ++ hexOfBytes h ++ '\n' ::
        ("size ".data ++ ['\n'])) = none
    ∧ shadowFromChars ("sha256 ".data ++ hexOfBytes h ++ '\n' ::
        ("size ".data ++ ['\n'])) = none
    ∧ blobShadowFromChars ("sha256 ".data ++ hexOfBytes h ++ ['\n']) = none :=
  ⟨blobShadow_roundtrip h sz hlen hb hsz,
   shadow_roundtrip h osz hlen hb hosz,
   blobShadow_reject_not_nl cs hcs,
   shadow_reject_not_nl cs hcs,
   blobShadow_reject_cr h ds hlen hb hds,
   shadow_reject_cr h ds hlen,
   blobShadow_reject_empty_size h hb,
   shadow_reject_empty_size h hlen hb,
   blobShadow_reject_no_size_line h hb⟩

/-- C2 counterexample: the canonical-without-size text is *accepted* by
`Shadow::from_str` (src/shadow.rs), parsing to a size-less shadow, though
the claim says an input omitting the size line must be rejected. -/
theorem C2_counterexample_shadow_accepts_missing_size :
    shadowFromChars ("sha256 ".data ++ List.replicate 64 'a' ++ ['\n']) =
      some ⟨List.replicate 32 170, none⟩ := by decide

/-- C2 witness: the amended theorem at a concrete digest, size, and
rejected inputs. -/
theorem C2_shadow_parsing_roundtrip_strict_witness :
    blobShadowFromChars (blobShadowToChars ⟨List.replicate 32 170, 11⟩) =
      some ⟨List.replicate 32 170, 11⟩
    ∧ blobShadowFromChars ['x'] = none :=
  ⟨(C2_shadow_parsing_roundtrip_strict (List.replicate 32 170) (by decide)
      (by decide) 11 (by norm_num) none (fun n hn => by cases hn) ['x'] (by decide)
      ['1'] (by decide)).1,
   (C2_shadow_parsing_roundtrip_strict (List.replicate 32 170) (by decide)
      (by decide) 11 (by norm_num) none (fun n hn => by cases hn) ['x'] (by decide)
      ['1'] (by decide)).2.2.1⟩

/-- C10 (amended): encoding and decoding of tree-entry names are inverse
for both implementations, and `"xy"` and `""` fail to decode in both; but
only `ShadowTreeEntryName::from_str` (src/paths.rs) validates the inner
component, rejecting `"0_."`, `"0_.."`, and `"0_a/b"` —
`BulkTreeEntryName::decode` (src/entry.rs) accepts them (see the
counterexample). -/
theorem C10_entry_name_decode (c : String) (hc : shadowComponentFromStr c = some c) :
    BulkTreeEntryName.decode (BulkTreeEntryName.child c).encode = some (.child c)
    ∧ shadowEntryFromStr (encodeChildName c) = some (.child c)
    ∧ BulkTreeEntryName.decode "0" = some .marker
    ∧ shadowEntryFromStr "0" = some .marker
    ∧ BulkTreeEntryName.decode "xy" = none
    ∧ shadowEntryFromStr "xy" = none
    ∧ BulkTreeEntryName.decode "" = none
    ∧ shadowEntryFromStr "" = none
    ∧ shadowEntryFromStr "0_." = none
    ∧ shadowEntryFromStr "0_.." = none
    ∧ shadowEntryFromStr "0_a/b" = none := by
  have henc : (BulkTreeEntryName.child c).encode = "0_" ++ c := rfl
  have hne : ("0_" ++ c : String) ≠ "0" := by
    intro heq
    have hd := congrArg String.data heq
    simp only [String.data_append] at hd
    cases hd
  have hstrip : stripPfx "0_".data ("0_" ++ c).data = some c.data := by
    rw [show ("0_" ++ c).data = "0_".data ++ c.data from String.data_append _ _]
    exact stripPfx_append _ _
  refine ⟨?_, ?_, by decide, by decide, by decide, by decide, by decide, by decide,
    by decide, by decide, by decide⟩
  · rw [henc]
    unfold BulkTreeEntryName.decode
    rw [if_neg hne, hstrip]
  · show shadowEntryFromStr ("0_" ++ c) = some (.child c)
    unfold shadowEntryFromStr
    rw [if_neg hne, hstrip]
    have hcomp : shadowComponentFromStr ⟨c.data⟩ = some c := hc
    simp only [hcomp]

/-- C10 counterexample: `BulkTreeEntryName::decode` (src/entry.rs) accepts
the three invalid-component inputs the claim says must fail. -/
theorem C10_counterexample_bulk_decode_lax :
    BulkTreeEntryName.decode "0_." = some (.child ".")
    ∧ BulkTreeEntryName.decode "0_.." = some (.child "..")
    ∧ BulkTreeEntryName.decode "0_a/b" = some (.child "a/b") := by decide

/-- C10 witness: the amended theorem at the component `"abc"`. -/
theorem C10_entry_name_decode_witness :
    BulkTreeEntryName.decode (BulkTreeEntryName.child "abc").encode =
      some (.child "abc")
    ∧ shadowEntryFromStr (encodeChildName "abc") = some (.child "abc") :=
  ⟨(C10_entry_name_decode "abc" (by decide)).1,
   (C10_entry_name_decode "abc" (by decide)).2.1⟩

/-- C7: the nodes-stream mode field is written as an octal numeral
`0<octal>`, but `NodesEntries::next` (src/snapshot.rs) parses it with
`str::parse::<u16>` as decimal; `is_executable` then masks `0o100` on the
decimal value.  For `"0644"` the code and the claim agree (not
executable); for `"0700"` the claim's octal reading (value 448) is
executable while the code's decimal value 700 has the `0o100` bit clear,
so the code reports it non-executable. -/
theorem C7_mode_decimal_parse_divergence :
    nodesModeValue "0700".data = some 700
    ∧ nodesIsExecutable 700 = false
    ∧ specOctalValue "0700".data = 448
    ∧ nodesIsExecutable 448 = true
    ∧ nodesModeValue "0644".data = some 644
    ∧ nodesIsExecutable 644 = false
    ∧ specOctalValue "0644".data = 420
    ∧ nodesIsExecutable 420 = false := by decide

/-- C1 (amended): the tree planter's file arm
(`Database::plant_snapshot_inner`, src/database/snapshot.rs) writes a new
repository blob whose byte content is the digest's 64-character lowercase
hex followed by a single newline — not the `sha256 …\nsize …\n` canonical
shadow text — and returns executable or plain blob mode according to the
entry's flag. -/
theorem C1_plant_file_blob (r : Repo) (digest : List Nat) (executable : Bool) :
    (plantSnapshotFile r digest executable).2.1 =
      (if executable then GitFileMode.blobExecutable else GitFileMode.blob)
    ∧ findBlob (plantSnapshotFile r digest executable).1
        (plantSnapshotFile r digest executable).2.2 =
      some (hexOfBytes digest ++ ['\n']) := by
  unfold plantSnapshotFile
  exact ⟨rfl, findBlob_writeObj_blob r _⟩

/-- C1 counterexample: the blob planted for a concrete digest holds the
bare hex text, which fails to parse as a canonical `BlobShadow` record,
refuting the claim that the planted content is the canonical
`sha256 <hex>\nsize <n>\n` form. -/
theorem C1_counterexample_not_canonical_shadow :
    findBlob (plantSnapshotFile ⟨[]⟩ (List.replicate 32 170) false).1
        (plantSnapshotFile ⟨[]⟩ (List.replicate 32 170) false).2.2 =
      some (hexOfBytes (List.replicate 32 170) ++ ['\n'])
    ∧ blobShadowFromChars (hexOfBytes (List.replicate 32 170) ++ ['\n']) = none := by
  constructor
  · rfl
  · decide

/-- The canonical and staging paths of a blob differ (their shard prefixes
`blobs/` and `partial/` have different lengths). -/
theorem blobPath_ne_stagingPath (root : String) (digest : List Nat) :
    blobPathOf root digest ≠ stagingPathOf root digest := by
  intro heq
  have hd := congrArg (fun s => s.data.length) heq
  unfold blobPathOf stagingPathOf at hd
  simp only [String.data_append, List.length_append] at hd
  have h7 : "/blobs/".data.length = 7 := rfl
  have h9 : "/partial/".data.length = 9 := rfl
  rw [h7, h9] at hd
  omega

/-- Reading back a just-written file yields its content. -/
theorem fsRead_write_self (st : FsState) (p : String) (c : List Char) :
    fsRead (fsWrite st p c) p = some c := by
  unfold fsRead fsWrite
  simp [List.find?]

/-- A file absent before a write to a different path is still absent. -/
theorem fsIsFile_write_other (st : FsState) (p q : String) (c : List Char)
    (hne : q ≠ p) (habs : fsIsFile st q = false) :
    fsIsFile (fsWrite st p c) q = false := by
  unfold fsIsFile at habs ⊢
  unfold fsWrite
  simp only [List.find?]
  rw [show (decide ((p, c).1 = q)) = false by simp; exact fun hc => hne hc.symm]
  have hnone : st.files.find? (fun f => f.1 = q) = none := by
    cases hf : st.files.find? (fun f => f.1 = q) with
    | none => rfl
    | some v => rw [hf] at habs; cases habs
  have : (st.files.filter (fun f => f.1 ≠ p)).find? (fun f => f.1 = q) = none := by
    rw [List.find?_eq_none] at hnone ⊢
    intro x hx
    exact hnone x (List.mem_of_mem_filter hx)
  rw [this]
  rfl

/-- C5 (amended): when the staged copy's hash differs from the requested
digest, `FilesystemRealBlobStorage::store` (src/blob_store.rs) aborts via
the `assert_eq!` inside `check_sha256sum` — a panic, not a recoverable
`HashMismatch` error — the staging file under `partial/` is left in place
with the copied content, and no file is created at the canonical `blobs/`
path. -/
theorem C5_store_mismatch_panics_and_leaves_staging
    (hashFn : List Char → List Nat) (st : FsState)
    (root src : String) (digest : List Nat) (content : List Char)
    (hhave : fsIsFile st (blobPathOf root digest) = false)
    (hsrc : fsRead st src = some content)
    (hstage : fsIsFile st (stagingPathOf root digest) = false)
    (hmis : hashFn content ≠ digest) :
    (storeBlob hashFn st root digest src).1 = .panicked
    ∧ fsRead (storeBlob hashFn st root digest src).2 (stagingPathOf root digest) =
        some content
    ∧ fsIsFile (storeBlob hashFn st root digest src).2 (blobPathOf root digest) =
        false := by
  have hred : storeBlob hashFn st root digest src =
      (.panicked, fsWrite st (stagingPathOf root digest) content) := by
    unfold storeBlob
    rw [hhave]
    simp only [Bool.false_eq_true, if_false, hsrc, hstage, if_pos hmis]
  rw [hred]
  refine ⟨rfl, fsRead_write_self _ _ _, ?_⟩
  exact fsIsFile_write_other st _ _ content (blobPath_ne_stagingPath root digest) hhave

/-- C5 witness: the amended theorem at a one-file filesystem with a
mismatching hash function. -/
theorem C5_store_mismatch_witness :
    (storeBlob (fun _ => [1]) ⟨[("s", ['x'])]⟩ "r" [0] "s").1 = .panicked
    ∧ fsRead (storeBlob (fun _ => [1]) ⟨[("s", ['x'])]⟩ "r" [0] "s").2
        (stagingPathOf "r" [0]) = some ['x']
    ∧ fsIsFile (storeBlob (fun _ => [1]) ⟨[("s", ['x'])]⟩ "r" [0] "s").2
        (blobPathOf "r" [0]) = false :=
  C5_store_mismatch_panics_and_leaves_staging (fun _ => [1]) ⟨[("s", ['x'])]⟩
    "r" "s" [0] ['x'] (by decide) (by decide) (by decide) (by decide)

/-- C5 counterexample: at a concrete mismatching store, the outcome is a
panic — not a recoverable `HashMismatch` error — and the staging file
under `partial/` is still present afterwards, refuting the claim that the
staging file is removed and an error returned. -/
theorem C5_counterexample_staging_left_behind :
    (storeBlob (fun _ => [2]) ⟨[("f", ['y'])]⟩ "root" [3] "f").1 = .panicked
    ∧ fsIsFile (storeBlob (fun _ => [2]) ⟨[("f", ['y'])]⟩ "root" [3] "f").2
        (stagingPathOf "root" [3]) = true := by decide

/-- C8: through `DatabaseFilesystem::get_inode` and `fetch_attr`
(src/database/fs.rs), a tree entry with executable-blob mode yields a file
inode whose stored (inverted) flag is `false` and whose attributes are
perm `0o555` with size the shadow's parsed `size` field; a plain-blob
entry yields flag `true`, perm `0o444`, same size rule. -/
theorem C8_file_attr_perm_and_size (r : Repo) (st : FsTable) (parent : Nat)
    (e : TreeEnt) (content : List Char) (sh : ShadowRec) (n : Nat)
    (hblob : findBlob r e.oid = some content)
    (hsh : shadowFromChars content = some sh)
    (hsz : sh.size = some n) :
    (e.mode = .blobExecutable →
      (getInode r st parent e).2 = some st.nextInode
      ∧ (getInode r st parent e).1.inodes.find? (fun p => p.1 = st.nextInode) =
          some (st.nextInode, .file e.oid false)
      ∧ fetchAttrFile r e.oid false = some (0o555, n))
    ∧ (e.mode = .blob →
      (getInode r st parent e).2 = some st.nextInode
      ∧ (getInode r st parent e).1.inodes.find? (fun p => p.1 = st.nextInode) =
          some (st.nextInode, .file e.oid true)
      ∧ fetchAttrFile r e.oid true = some (0o444, n)) := by
  have hattr : ∀ (ex : Bool), fetchAttrFile r e.oid ex =
      some (0o444 ||| (if ex then 0 else 0o111), n) := by
    intro ex
    unfold fetchAttrFile
    simp only [hblob, hsh, hsz]
    rfl
  constructor
  · intro hmode
    refine ⟨?_, ?_, ?_⟩
    · unfold getInode
      simp [hmode, kindOf]
    · unfold getInode
      simp [hmode, kindOf, List.find?]
    · rw [hattr false]
      simp only [if_false, Bool.false_eq_true]
      rfl
  · intro hmode
    refine ⟨?_, ?_, ?_⟩
    · unfold getInode
      simp [hmode, kindOf]
    · unfold getInode
      simp [hmode, kindOf, List.find?]
    · rw [hattr true]
      simp only [if_true]
      rfl

/-- C8 witness: a repository holding one shadow blob of size 4096 (whose
own text is 76 bytes, not 4096), read through an executable-blob entry and
a plain-blob entry. -/
theorem C8_file_attr_perm_and_size_witness :
    fetchAttrFile ⟨[.blobObj (shadowToChars ⟨List.replicate 32 170, some 4096⟩)]⟩
      0 false = some (0o555, 4096)
    ∧ fetchAttrFile ⟨[.blobObj (shadowToChars ⟨List.replicate 32 170, some 4096⟩)]⟩
      0 true = some (0o444, 4096) :=
  ⟨((C8_file_attr_perm_and_size
      ⟨[.blobObj (shadowToChars ⟨List.replicate 32 170, some 4096⟩)]⟩
      (fsTableInit 0) 1 ⟨"0_f", .blobExecutable, 0⟩ _ ⟨List.replicate 32 170, some 4096⟩
      4096 rfl
      (shadow_roundtrip (List.replicate 32 170) (some 4096) (by decide) (by decide)
        (fun m hm => by cases hm; norm_num))
      rfl).1 rfl).2.2,
   ((C8_file_attr_perm_and_size
      ⟨[.blobObj (shadowToChars ⟨List.replicate 32 170, some 4096⟩)]⟩
      (fsTableInit 0) 1 ⟨"0_f", .blob, 0⟩ _ ⟨List.replicate 32 170, some 4096⟩
      4096 rfl
      (shadow_roundtrip (List.replicate 32 170) (some 4096) (by decide) (by decide)
        (fun m hm => by cases hm; norm_num))
      rfl).2 rfl).2.2⟩

/-- C9: two consecutive `readdir` resolutions of the same directory slot
(src/database/fs.rs) allocate two distinct inodes (2 then 3), because the
cache insertion keys the entry by the freshly allocated child inode
instead of the directory inode; `lookup` on the same slot caches
correctly and returns inode 2 both times. -/
theorem C9_readdir_double_allocation :
    (readdirSlot ⟨[]⟩ (fsTableInit 0) 1 1 ⟨"0_a", .blob, 7⟩).2 = some 2
    ∧ (readdirSlot ⟨[]⟩ (readdirSlot ⟨[]⟩ (fsTableInit 0) 1 1 ⟨"0_a", .blob, 7⟩).1 1 1
        ⟨"0_a", .blob, 7⟩).2 = some 3
    ∧ (lookupSlot ⟨[]⟩ (fsTableInit 0) 1 1 ⟨"0_a", .blob, 7⟩).2 = some 2
    ∧ (lookupSlot ⟨[]⟩ (lookupSlot ⟨[]⟩ (fsTableInit 0) 1 1 ⟨"0_a", .blob, 7⟩).1 1 1
        ⟨"0_a", .blob, 7⟩).2 = some 2 := by decide

/-! Traversal lemmas. -/

/-- Only the literal `"0"` decodes to the marker. -/
theorem decode_marker_name (s : String)
    (h : BulkTreeEntryName.decode s = some .marker) : s = "0" := by
  unfold BulkTreeEntryName.decode at h
  by_cases hs : s = "0"
  · exact hs
  · rw [if_neg hs] at h
    match hstrip : stripPfx "0_".data s.data with
    | none => rw [hstrip] at h; cases h
    | some cc => rw [hstrip] at h; cases h

/-- Reduction of the walker at zero fuel. -/
theorem travWalk_zero_eq (r : Repo) (cache : Option Nat) (x : Sum Nat (List TreeEnt)) :
    travWalk r 0 cache x = .error .fuel := rfl

/-- Reduction of the walker on a tree visit. -/
theorem travWalk_inl_eq (r : Repo) (fuel : Nat) (cache : Option Nat) (o : Nat) :
    travWalk r (fuel + 1) cache (.inl o) =
      (match findTree r o with
       | none => .error .gitErr
       | some es =>
         match es with
         | [] => .ok ()
         | e0 :: rest =>
           match BulkTreeEntryName.decode e0.name with
           | none => .error .invariant
           | some n =>
             if n = .marker then
               if e0.mode = .blob then
                 (match ensureBlobEmpty r cache e0.oid with
                  | .error err => .error err
                  | .ok _ => travWalk r fuel cache (.inr rest))
               else .error .invariant
             else .error .invariant) := rfl

/-- Reduction of the walker on an exhausted entry loop. -/
theorem travWalk_inr_nil_eq (r : Repo) (fuel : Nat) (cache : Option Nat) :
    travWalk r (fuel + 1) cache (.inr []) = .ok () := rfl

/-- Reduction of the walker on an entry-loop step. -/
theorem travWalk_inr_cons_eq (r : Repo) (fuel : Nat) (cache : Option Nat)
    (e : TreeEnt) (rest : List TreeEnt) :
    travWalk r (fuel + 1) cache (.inr (e :: rest)) =
      (match BulkTreeEntryName.decode e.name with
       | none => .error .invariant
       | some .marker => .error .panicked
       | some (.child _) =>
         match kindOf e.mode with
         | .blobK => travWalk r fuel cache (.inr rest)
         | .treeK =>
           (match travWalk r fuel cache (.inl e.oid) with
            | .error err => .error err
            | .ok _ => travWalk r fuel cache (.inr rest))
         | .otherK => .error .invariant) := rfl

/-- Reduction of the cache-less blob-emptiness check. -/
theorem ensureBlobEmpty_none_eq (r : Repo) (oid : Nat) :
    ensureBlobEmpty r none oid =
      (match findBlob r oid with
       | none => .error .gitErr
       | some content => if content = [] then .ok () else .error .invariant) := rfl

/-- A passing cache-less marker-blob check means the blob exists and is
empty. -/
theorem ensureBlobEmpty_none_ok (r : Repo) (oid : Nat)
    (h : ensureBlobEmpty r none oid = .ok ()) : findBlob r oid = some [] := by
  rw [ensureBlobEmpty_none_eq] at h
  match hfb : findBlob r oid with
  | none => rw [hfb] at h; cases h
  | some content =>
    rw [hfb] at h
    by_cases hc : content = []
    · rw [hc]
    · simp only [if_neg hc] at h
      cases h

/-- A successful walk of a non-empty tree implies a successful entry loop
over the tree's non-first entries at one less fuel. -/
theorem traverseFrom_ok_entries (r : Repo) (f : Nat) (o : Nat)
    (e0 : TreeEnt) (rest : List TreeEnt)
    (hok : traverseFrom r (f + 1) none o = .ok ())
    (hft : findTree r o = some (e0 :: rest)) :
    traverseEntries r f none rest = .ok () := by
  unfold traverseFrom at hok
  rw [travWalk_inl_eq] at hok
  simp only [hft] at hok
  match hdec : BulkTreeEntryName.decode e0.name with
  | none => rw [hdec] at hok; cases hok
  | some nm =>
    simp only [hdec] at hok
    by_cases hm : nm = .marker
    · subst hm
      rw [if_pos rfl] at hok
      by_cases hmode : e0.mode = .blob
      · rw [if_pos hmode] at hok
        match hemp : ensureBlobEmpty r none e0.oid with
        | .error err => rw [hemp] at hok; cases hok
        | .ok _ =>
          simp only [hemp] at hok
          exact hok
      · rw [if_neg hmode] at hok; cases hok
    · rw [if_neg hm] at hok; cases hok

/-- A successful entry loop implies every tree-kind entry it covers walks
successfully at some fuel. -/
theorem traverseEntries_ok_sub (r : Repo) :
    ∀ (fuel : Nat) (es : List TreeEnt),
      traverseEntries r fuel none es = .ok () →
      ∀ e ∈ es, kindOf e.mode = .treeK →
        ∃ f, traverseFrom r f none e.oid = .ok () := by
  intro fuel
  induction fuel with
  | zero =>
    intro es hok
    rw [show traverseEntries r 0 none es = Except.error TravErr.fuel from rfl] at hok
    cases hok
  | succ f ih =>
    intro es hok e he hkind
    match es, he with
    | e0 :: rest, he =>
      unfold traverseEntries at hok
      rw [travWalk_inr_cons_eq] at hok
      match hdec : BulkTreeEntryName.decode e0.name with
      | none => rw [hdec] at hok; cases hok
      | some .marker => rw [hdec] at hok; cases hok
      | some (.child c) =>
        simp only [hdec] at hok
        match hk : kindOf e0.mode with
        | .blobK =>
          simp only [hk] at hok
          rcases List.mem_cons.mp he with he0 | hrest
          · subst he0
            rw [hk] at hkind
            cases hkind
          · exact ih rest hok e hrest hkind
        | .treeK =>
          simp only [hk] at hok
          match hrec : travWalk r f none (.inl e0.oid) with
          | .error err => rw [hrec] at hok; cases hok
          | .ok u =>
            simp only [hrec] at hok
            rcases List.mem_cons.mp he with he0 | hrest
            · subst he0
              cases u
              exact ⟨f, hrec⟩
            · exact ih rest hok e hrest hkind
        | .otherK => rw [hk] at hok; cases hok

/-- A successful walk checks the visited tree's own marker: a non-empty
tree starts with the entry named `"0"` in plain blob mode referring to an
empty blob. -/
theorem traverseFrom_ok_marker (r : Repo) (fuel : Nat) (o : Nat) (es : List TreeEnt)
    (hok : traverseFrom r fuel none o = .ok ())
    (hft : findTree r o = some es) (hne : es ≠ []) :
    ∃ oid rest, es = ⟨"0", .blob, oid⟩ :: rest ∧ findBlob r oid = some [] := by
  match fuel with
  | 0 =>
    rw [show traverseFrom r 0 none o = Except.error TravErr.fuel from rfl] at hok
    cases hok
  | f + 1 =>
    unfold traverseFrom at hok
    rw [travWalk_inl_eq] at hok
    simp only [hft] at hok
    match es, hne with
    | e0 :: rest, _ =>
      simp only [] at hok
      match hdec : BulkTreeEntryName.decode e0.name with
      | none => rw [hdec] at hok; cases hok
      | some nm =>
        simp only [hdec] at hok
        by_cases hm : nm = .marker
        · subst hm
          rw [if_pos rfl] at hok
          by_cases hmode : e0.mode = .blob
          · rw [if_pos hmode] at hok
            match hemp : ensureBlobEmpty r none e0.oid with
            | .error err => rw [hemp] at hok; cases hok
            | .ok u =>
              cases u
              have hname : e0.name = "0" := decode_marker_name _ hdec
              have hshape : e0 = ⟨"0", .blob, e0.oid⟩ := by
                match e0, hname, hmode with
                | ⟨nm0, md0, od0⟩, hname, hmode =>
                  simp only [] at hname hmode
                  rw [hname, hmode]
              exact ⟨e0.oid, rest, by rw [← hshape], ensureBlobEmpty_none_ok r e0.oid hemp⟩
          · rw [if_neg hmode] at hok; cases hok
        · rw [if_neg hm] at hok; cases hok

/-- C6 (amended): a successful traverser walk guarantees that every tree
it visits — the root and every subtree reached through tree entries —
either is entirely empty or has the marker `"0"` (plain blob mode,
referring to an empty blob) as its first entry; violating trees make the
walk fail.  The claim as stated also requires an error for trees without
any marker entry, but an *empty* tree passes unchecked (see the
counterexample), so the guarantee is restricted to non-empty trees. -/
theorem C6_traverse_marker_enforcement (r : Repo) (fuel : Nat) (o o'' : Nat)
    (hok : traverseDb r fuel o = .ok ())
    (hreach : ReachTree r o o'') :
    ∀ es, findTree r o'' = some es → es ≠ [] →
      ∃ oid rest, es = ⟨"0", .blob, oid⟩ :: rest ∧ findBlob r oid = some [] := by
  unfold traverseDb at hok
  induction hreach generalizing fuel with
  | refl o1 =>
    exact fun es hft hne => traverseFrom_ok_marker r fuel o1 es hok hft hne
  | step hft hmem hkind hsub ih =>
    match fuel with
    | 0 =>
      rw [show ∀ q, traverseFrom r 0 none q = Except.error TravErr.fuel from
        fun q => rfl] at hok
      cases hok
    | f + 1 =>
      rename_i o1 o2 es1 e1
      obtain ⟨e0, rest, hes⟩ : ∃ e0 rest, es1 = e0 :: rest := by
        cases es1 with
        | nil => cases hmem
        | cons a b => exact ⟨a, b, rfl⟩
      subst hes
      have hentries := traverseFrom_ok_entries r f o1 e0 rest hok hft
      obtain ⟨f1, hchild⟩ := traverseEntries_ok_sub r f rest hentries e1 hmem hkind
      exact ih f1 hchild

/-- C6 counterexample: a completely empty tree — which has no marker entry
at all — passes a traverser walk without any error. -/
theorem C6_counterexample_empty_tree_passes :
    findTree ⟨[.treeObj []]⟩ 0 = some []
    ∧ traverseDb ⟨[.treeObj []]⟩ 9 0 = .ok () := ⟨rfl, rfl⟩

/-- C6 witness: the amended theorem at a one-tree repository whose root
holds exactly a valid marker. -/
theorem C6_traverse_marker_enforcement_witness :
    ∃ oid rest, ([⟨"0", .blob, 0⟩] : List TreeEnt) = ⟨"0", .blob, oid⟩ :: rest ∧
      findBlob ⟨[.blobObj [], .treeObj [⟨"0", .blob, 0⟩]]⟩ oid = some [] :=
  C6_traverse_marker_enforcement ⟨[.blobObj [], .treeObj [⟨"0", .blob, 0⟩]]⟩ 2 1 1
    (by rfl) (ReachTree.refl 1) [⟨"0", .blob, 0⟩] (by rfl) (by simp)
